import Mathlib

/-!
Verification of the batched question-generation pipeline
(module/generator.py, module/manager.py, module/translator.py, module/main.py).

The Python source is shallowly embedded: pure string routines become Lean
functions on character lists, the remote model calls become explicit outcome
oracles, and the retry loop / batch collation become total recursive
functions.  Python regular-expression scans are embedded as deterministic
scanners that follow the semantics of the concrete patterns used by the code
(the character classes involved are pairwise disjoint, so the greedy match at
each start position is unique and no backtracking across classes occurs;
non-overlapping findall semantics are reproduced by resuming each scan at the
end of the previous match).  The whitespace class is modelled as ASCII
whitespace and lowercasing as ASCII lowercasing, matching the ASCII text the
pipeline manipulates.
-/

namespace QAGen


/-! ### Character classes and string helpers -/

/-- ASCII whitespace, the characters matched by the regex class backslash-s
on the ASCII plane (space, tab, newline, carriage return, vertical tab,
form feed). -/
def isPySpace (c : Char) : Bool :=
  c = ' ' || c = '\t' || c = '\n' || c = '\r' || c = '\x0b' || c = '\x0c'

/-- ASCII decimal digit, the regex class backslash-d on the ASCII plane. -/
def isPyDigit (c : Char) : Bool :=
  '0' ≤ c && c ≤ '9'

/-- The three dash variants recognised by the sequence check
(ASCII hyphen, en dash, em dash). -/
def isDashChar (c : Char) : Bool :=
  c = '-' || c = '–' || c = '—'

/-- ASCII lowercasing of a string, embedding the str.lower calls of the
source. -/
def lowerStr (s : String) : String :=
  ⟨s.data.map Char.toLower⟩

/-- Substring test on character lists: the needle is a prefix of some
suffix of the haystack. -/
def subListOf (needle : List Char) : List Char → Bool
  | [] => needle.isEmpty
  | c :: t => needle.isPrefixOf (c :: t) || subListOf needle t

/-- Substring test, embedding the Python expression needle in hay. -/
def containsSub (needle hay : String) : Bool :=
  subListOf needle.data hay.data

/-- Numeric value of a run of ASCII digits, embedding int() on the run. -/
def digitsToNat (l : List Char) : Nat :=
  l.foldl (fun acc c => 10 * acc + (c.toNat - '0'.toNat)) 0

/-! ### Data model

The models.py file of the repository is not present under src/.
Modelled from the spec: section 3 describes DraftQuestion as
stem / exactly 4 options / answer in A-D, and the constructor calls in
manager.py name the fields used below. -/

/-- Modelled from the spec: the draft question produced by one Generator
attempt (models.py QuestionLLM is not in src/; spec section 3,
DraftQuestion). -/
structure QuestionLLM where
  question : String
  options : List String
  answer : Char
deriving DecidableEq

/-- Modelled from the spec: the secondary-language rendering returned by the
Translator (models.py QuestionLLMHindi is not in src/; spec section 6,
Translator boundary). -/
structure QuestionLLMHindi where
  question : String
  options : List String
deriving DecidableEq

/-- A draft respecting the spec invariant on DraftQuestion: exactly four
options and an answer letter in A-D. -/
def QuestionLLM.wellFormed (q : QuestionLLM) : Prop :=
  q.options.length = 4 ∧ q.answer ∈ (['A', 'B', 'C', 'D'] : List Char)

/-! ### Sequence-randomization check (generator.py lines 23-56) -/

/-- Keywords whose presence in the lowered blueprint marks a sequencing
question (generator.py lines 32-34). -/
def seqKeywords : List String :=
  ["chronological", "geographical", "sequencing", "correct chronological order",
   "correct sequence", "north to south", "east to west", "earliest first"]

/-- Does the blueprint describe a sequencing question. -/
def isSequencing (blueprint : String) : Bool :=
  seqKeywords.any (fun k => containsSub k (lowerStr blueprint))

/-- Match one dash-plus-number block of the sequence regex at the head of
the input: whitespace star, one dash variant, whitespace star, one or more
digits.  Returns the matched text and the rest. -/
def matchDashNum (l : List Char) : Option (List Char × List Char) :=
  let (w1, r1) := l.span isPySpace
  match r1 with
  | [] => none
  | c :: r2 =>
    if isDashChar c then
      let (w2, r3) := r2.span isPySpace
      let (d, r4) := r3.span isPyDigit
      if d.isEmpty then none else some (w1 ++ c :: w2 ++ d, r4)
    else none

/-- Match the full sequence pattern (digits, then three dash-number blocks)
at the head of the input, returning the matched text. -/
def matchSeqHere (l : List Char) : Option (List Char) :=
  let (d1, r1) := l.span isPyDigit
  if d1.isEmpty then none else
  match matchDashNum r1 with
  | none => none
  | some (m2, r2) =>
    match matchDashNum r2 with
    | none => none
    | some (m3, r3) =>
      match matchDashNum r3 with
      | none => none
      | some (m4, _) => some (d1 ++ m2 ++ m3 ++ m4)

/-- Leftmost match of the four-element dash-separated numeral pattern,
embedding re.findall followed by taking element zero (generator.py
line 44 and 48). -/
def firstSeqMatch : List Char → Option (List Char)
  | [] => none
  | c :: rest =>
    match matchSeqHere (c :: rest) with
    | some m => some m
    | none => firstSeqMatch rest

/-- Remove every whitespace character, embedding re.sub of backslash-s-plus
with the empty string (generator.py line 48). -/
def stripSpaces (l : List Char) : List Char :=
  l.filter (fun c => !isPySpace c)

/-- Replace en and em dashes by the ASCII hyphen, embedding re.sub of the
dash class (generator.py line 49). -/
def normalizeDashes (l : List Char) : List Char :=
  l.map (fun c => if c = '–' || c = '—' then '-' else c)

/-- The two forbidden normalised sequences (generator.py line 52). -/
def forbiddenSeqs : List (List Char) :=
  ["1-2-3-4".data, "4-3-2-1".data]

/-- The text of the correct answer option: the option indexed by the answer
letter relative to letter A (generator.py lines 40-41; in-range by the
DraftQuestion invariant of spec section 3). -/
def correctOption (q : QuestionLLM) : String :=
  q.options.getD (q.answer.toNat - 'A'.toNat) ""

/-- The sequence-randomization validator (generator.py lines 23-56):
passes unless the blueprint is a sequencing one and the first extracted
dash-separated numeral sequence normalises to a forbidden sequence. -/
def validateSequenceRandomization (q : QuestionLLM) (blueprint : String) : Bool :=
  if isSequencing blueprint then
    match firstSeqMatch (correctOption q).data with
    | some m => !(forbiddenSeqs.contains (normalizeDashes (stripSpaces m)))
    | none => true
  else true

/-! ### Assertion-reason format check (generator.py lines 58-81) -/

/-- Keywords in the lowered blueprint that activate the assertion-reason
format check (generator.py lines 65-66). -/
def arTriggerKeywords : List String :=
  ["assertion", "assertion-reason", "statement-i", "statement-ii"]

/-- Comparison vocabulary expected in option A of an assertion-reason
question (generator.py line 75). -/
def arFormatKeywords : List String :=
  ["both", "correct", "incorrect", "explains", "explanation"]

/-- The assertion-reason format validator (generator.py lines 58-81). -/
def validateAssertionReasonFormat (q : QuestionLLM) (blueprint : String) : Bool :=
  if arTriggerKeywords.any (fun k => containsSub k (lowerStr blueprint)) then
    arFormatKeywords.any (fun k => containsSub k (lowerStr (q.options.getD 0 "")))
  else true

/-! ### Statement counting (generator.py lines 83-108)

Three regex scans over the drafted stem; the code keeps the maximum value
found by each scan and then the maximum of the three. -/

/-- Roman numeral letter I, matched case-insensitively. -/
def isCharI (c : Char) : Bool := c = 'I' || c = 'i'

/-- Roman numeral letter V, matched case-insensitively. -/
def isCharV (c : Char) : Bool := c = 'V' || c = 'v'

/-- Match a literal dot followed by at least one whitespace character,
returning the supplied value and the rest after the greedy whitespace run. -/
def tryDotWs (v : Nat) : List Char → Option (Nat × List Char)
  | '.' :: r =>
    let (w, r2) := r.span isPySpace
    if w.isEmpty then none else some (v, r2)
  | _ => none

/-- Match the numbered-statement pattern at an anchor point: whitespace
star, one or more digits, a dot, then at least one whitespace (the pattern
of generator.py line 91 after its start-of-line alternation). -/
def matchNumberedHere (l : List Char) : Option (Nat × List Char) :=
  let (_, r1) := l.span isPySpace
  let (d, r2) := r1.span isPyDigit
  if d.isEmpty then none else
  match r2 with
  | '.' :: r3 =>
    let (w, r4) := r3.span isPySpace
    if w.isEmpty then none else some (digitsToNat d, r4)
  | _ => none

/-- Scan for newline-anchored numbered-statement matches, resuming each
scan at the end of the previous match (findall semantics).  The fuel
argument is a structural-recursion device; it never runs out when started
at the length of the list, because every match strictly shortens the
rest of the input (theorem matchNumberedHere_length). -/
def scanNumberedF : Nat → List Char → List Nat
  | 0, _ => []
  | _ + 1, [] => []
  | fuel + 1, c :: rest =>
    if c = '\n' then
      match matchNumberedHere rest with
      | some (n, r) => n :: scanNumberedF fuel r
      | none => scanNumberedF fuel rest
    else scanNumberedF fuel rest

/-- Newline-anchored numbered-statement scan at adequate fuel. -/
def scanNumbered (l : List Char) : List Nat := scanNumberedF l.length l

/-- All numbered-statement values found in the text: the start-of-string
anchor first, then newline anchors (generator.py line 91). -/
def findNumbered (l : List Char) : List Nat :=
  match matchNumberedHere l with
  | some (n, r) => n :: scanNumbered r
  | none => scanNumbered l

/-- Try, in engine order, the alternatives of the roman-numeral group
followed by a dot and whitespace: runs of one to three letters I tried
longest first, then the literal IV, then the literal V. -/
def tryIRun : Nat → List Char → Option (Nat × List Char)
  | 0, _ => none
  | k + 1, l =>
    match tryDotWs (k + 1) (l.drop (k + 1)) with
    | some x => some x
    | none => tryIRun k l

/-- The alternatives of the roman group that follow the letter-I runs:
the literal IV, then the literal V, each with dot and whitespace. -/
def romanTail : List Char → Option (Nat × List Char)
  | a :: b :: rest =>
    if isCharI a && isCharV b then tryDotWs 4 rest
    else if isCharV a then tryDotWs 5 (b :: rest)
    else none
  | [a] => if isCharV a then tryDotWs 5 [] else none
  | [] => none

/-- The roman-numeral alternation at the head of the input
(the group of generator.py line 95 with its dot and trailing whitespace). -/
def romanAltHere (l : List Char) : Option (Nat × List Char) :=
  match tryIRun (min 3 (l.takeWhile isCharI).length) l with
  | some x => some x
  | none => romanTail l

/-- Match the roman-statement pattern at an anchor point: whitespace star
then the roman alternation (generator.py line 95). -/
def matchRomanHere (l : List Char) : Option (Nat × List Char) :=
  let (_, r1) := l.span isPySpace
  romanAltHere r1

/-- Scan for newline-anchored roman-statement matches (fuelled like
scanNumberedF, with sufficiency from matchRomanHere_length). -/
def scanRomanF : Nat → List Char → List Nat
  | 0, _ => []
  | _ + 1, [] => []
  | fuel + 1, c :: rest =>
    if c = '\n' then
      match matchRomanHere rest with
      | some (n, r) => n :: scanRomanF fuel r
      | none => scanRomanF fuel rest
    else scanRomanF fuel rest

/-- Newline-anchored roman-statement scan at adequate fuel. -/
def scanRoman (l : List Char) : List Nat := scanRomanF l.length l

/-- All roman-statement values: start-of-string anchor first, then newline
anchors (generator.py line 95). -/
def findRoman (l : List Char) : List Nat :=
  match matchRomanHere l with
  | some (n, r) => n :: scanRoman r
  | none => scanRoman l

/-- The group of the statement-label pattern: either a run of up to three
letters I (its length is the value: the IV alternative of the source
pattern is shadowed by the single-I match, so an IV label yields value
one) or a digit run (generator.py line 99). -/
def labelGroup : List Char → Option (Nat × List Char)
  | [] => none
  | c :: cs =>
    if isCharI c then
      let k := min 3 ((c :: cs).takeWhile isCharI).length
      some (k, (c :: cs).drop k)
    else if isPyDigit c then
      let (d, r2) := (c :: cs).span isPyDigit
      some (digitsToNat d, r2)
    else none

/-- Match the explicit statement-label pattern at the head of the input:
the literal word statement (case-insensitive), then a run of hyphens and
whitespace, then the label group above (generator.py line 99). -/
def matchStatementHere (l : List Char) : Option (Nat × List Char) :=
  if (l.take 9).map Char.toLower = "statement".data then
    labelGroup ((l.drop 9).dropWhile (fun c => c = '-' || isPySpace c))
  else none

/-- Scan the whole text for statement labels, anywhere (no anchor),
resuming after each match (fuelled like scanNumberedF, with sufficiency
from matchStatementHere_length). -/
def scanLabelsF : Nat → List Char → List Nat
  | 0, _ => []
  | _ + 1, [] => []
  | fuel + 1, c :: rest =>
    match matchStatementHere (c :: rest) with
    | some (n, r) => n :: scanLabelsF fuel r
    | none => scanLabelsF fuel rest

/-- Whole-text statement-label scan at adequate fuel. -/
def scanStatementLabels (l : List Char) : List Nat := scanLabelsF l.length l

/-- Maximum of a list of naturals, zero for the empty list: the Python
max-or-zero idiom of generator.py lines 92, 96 and 100-106. -/
def maxOfList (l : List Nat) : Nat := l.foldr max 0

/-- Highest leading integer before a dot at a line start. -/
def countNumbered (text : List Char) : Nat := maxOfList (findNumbered text)

/-- Highest roman numeral before a dot at a line start. -/
def countRoman (text : List Char) : Nat := maxOfList (findRoman text)

/-- Highest index of an explicit statement label anywhere in the text. -/
def countLabels (text : List Char) : Nat := maxOfList (scanStatementLabels text)

/-- The statement counter (generator.py lines 83-108): the maximum of the
three heuristics. -/
def countStatements (text : List Char) : Nat :=
  max (countNumbered text) (max (countRoman text) (countLabels text))

/-! ### Statement-completeness check (generator.py lines 154-179) -/

/-- Match the pattern multiple, separator run, statement, separator run,
digits at the head of the (already lowered) blueprint, returning the
required count. -/
def matchMSHere (l : List Char) : Option Nat :=
  if l.take 8 = "multiple".data then
    let r0 := l.drop 8
    let (_, r1) := r0.span (fun c => c = '-' || isPySpace c)
    if r1.take 9 = "statement".data then
      let r2 := r1.drop 9
      let (_, r3) := r2.span (fun c => c = '-' || isPySpace c)
      let (d, _) := r3.span isPyDigit
      if d.isEmpty then none else some (digitsToNat d)
    else none
  else none

/-- First match of the multiple-statement-count pattern in the lowered
blueprint, embedding re.search (generator.py line 164). -/
def searchMS : List Char → Option Nat
  | [] => none
  | c :: rest =>
    match matchMSHere (c :: rest) with
    | some n => some n
    | none => searchMS rest

/-- The statement-completeness validator (generator.py lines 154-179):
fails when the blueprint names a required count bigger than the counted
statements, or carries a three-statement assertion-reason marker with
fewer than three counted statements. -/
def validateStatementCompleteness (q : QuestionLLM) (blueprint : String) : Bool :=
  let bl := lowerStr blueprint
  let failMS :=
    match searchMS bl.data with
    | some n => decide (countStatements q.question.data < n)
    | none => false
  if failMS then false
  else if (containsSub "3-stmt assertion" bl || containsSub "complex 3-stmt" bl)
        && decide (countStatements q.question.data < 3) then false
  else true

/-! ### Closing-question check (generator.py lines 110-152) -/

/-- Accepted closing phrasings for multi-statement patterns
(generator.py lines 120-126). -/
def closingMulti : List String :=
  ["which of the statements given above is/are correct",
   "which of the statements given above is/are not correct",
   "which of the statements given above are incorrect",
   "which of the above statements is/are correct",
   "which of the above statements is/are not correct"]

/-- Accepted closing phrasings for how-many patterns
(generator.py lines 133-137). -/
def closingHowMany : List String :=
  ["how many of the statements given above are correct",
   "how many of the above statements are correct",
   "how many of the statements given above is/are correct"]

/-- Accepted closing phrasings for assertion-reason patterns
(generator.py lines 144-147). -/
def closingAR : List String :=
  ["which one of the following is correct in respect of the above statements",
   "which of the following is correct in respect of the above"]

/-- The closing-question validator (generator.py lines 110-152). -/
def validateClosingQuestion (q : QuestionLLM) (blueprint : String) : Bool :=
  let bl := lowerStr blueprint
  let ql := lowerStr q.question
  if containsSub "multiple-statement" bl
      && !(closingMulti.any (fun p => containsSub p ql)) then false
  else if containsSub "how many" bl
      && !(closingHowMany.any (fun p => containsSub p ql)) then false
  else if (containsSub "assertion" bl || containsSub "3-stmt" bl
        || containsSub "2-stmt" bl)
      && !(closingAR.any (fun p => containsSub p ql)) then false
  else true

/-! ### The Generator retry loop (generator.py lines 181-357)

The remote model is an oracle from the attempt index to either an
exception or a parsed draft.  The loop returns the pair of the produced
question (if any) and the number of attempts actually spent. -/

/-- Conjunction of the four validator checks in source order
(generator.py lines 292-327). -/
def passesAllChecks (q : QuestionLLM) (blueprint : String) : Bool :=
  validateSequenceRandomization q blueprint
    && validateAssertionReasonFormat q blueprint
    && validateStatementCompleteness q blueprint
    && validateClosingQuestion q blueprint

/-- Critical patterns get a bigger retry budget
(generator.py lines 194-198 and 342-346). -/
def isCriticalPattern (blueprint : String) : Bool :=
  containsSub "multiple-statement-4" (lowerStr blueprint)
    || containsSub "complex 3-stmt" (lowerStr blueprint)
    || containsSub "3-stmt assertion" (lowerStr blueprint)

/-- Retry budget: five attempts for critical patterns, three otherwise
(generator.py line 199). -/
def maxRetries (blueprint : String) : Nat :=
  if isCriticalPattern blueprint then 5 else 3

/-- How the attempt loop ended: an explicit return from inside the loop,
or loop exhaustion falling through to the code after the loop. -/
inductive GenOutcome where
  | returned (result : Option QuestionLLM) (used : Nat)
  | exhausted (last : Option QuestionLLM) (used : Nat)

/-- One pass of the attempt loop (generator.py lines 201-337).  The fuel
counts the remaining attempts; the index i is the current attempt number;
last tracks the most recent parsed draft (the question-obj local of the
source).  Every retry guard of the source reads attempt below
max-retries-minus-one, which here is fuel above zero: on the final
attempt a validation failure falls through every retry guard and reaches
the unconditional return of the draft (line 330), and a remote exception
returns none (line 337). -/
def genLoop (blueprint : String) (att : Nat → Except String QuestionLLM) :
    Nat → Nat → Option QuestionLLM → GenOutcome
  | 0, i, last => .exhausted last i
  | fuel + 1, i, last =>
    match att i with
    | .error _ =>
      if fuel = 0 then .returned none (i + 1)
      else genLoop blueprint att fuel (i + 1) last
    | .ok q =>
      if fuel = 0 then .returned (some q) (i + 1)
      else if passesAllChecks q blueprint then .returned (some q) (i + 1)
      else genLoop blueprint att fuel (i + 1) (some q)

/-- The full generate-question routine (generator.py lines 181-357),
including the after-loop critical-pattern re-check of lines 339-357. -/
def generateQuestion (blueprint : String)
    (att : Nat → Except String QuestionLLM) : Option QuestionLLM × Nat :=
  match genLoop blueprint att (maxRetries blueprint) 0 none with
  | .returned r n => (r, n)
  | .exhausted last n =>
    if isCriticalPattern blueprint then
      match last with
      | some q =>
        if !validateStatementCompleteness q blueprint
            || !validateClosingQuestion q blueprint then (none, n)
        else (some q, n)
      | none => (none, n)
    else (last, n)

/-! ### Translator (translator.py lines 13-86) -/

/-- The translator wraps its single remote call in a try block and maps
any exception to none; a successful call returns the parsed payload,
which may itself be absent (translator.py lines 67-86). -/
def translateQuestion (remote : Except String (Option QuestionLLMHindi)) :
    Option QuestionLLMHindi :=
  match remote with
  | .ok p => p
  | .error _ => none

/-! ### The batch manager (manager.py lines 51-147 and 257-259) -/

/-- Modelled from the spec: the final question record (models.py Question
is not in src/; the fields are the ones set by the constructor call in
manager.py lines 81-101, following spec section 3). -/
structure Question where
  question_number : Nat
  question_english : String
  options_english : List String
  question_hindi : String
  options_hindi : List String
  answer : Char
  question_blueprint : String
  subject : String
deriving DecidableEq

/-- Modelled from the spec: the ordered result set (models.py TestPaper is
not in src/; spec section 3). -/
structure TestPaper where
  questions : List Question
deriving DecidableEq

/-- The per-plan remote outcomes: whether the task body raised an uncaught
exception, what the generator returned, and how the translator remote
call went. -/
structure PlanOutcome where
  crash : Bool
  gen : Option QuestionLLM
  trans : Except String (Option QuestionLLMHindi)

/-- The text before the first occurrence of the separator, or the whole
text when the separator is absent: element zero of a Python split. -/
def beforeFirst (sep : List Char) : List Char → List Char
  | [] => []
  | c :: rest =>
    if sep.isPrefixOf (c :: rest) then []
    else c :: beforeFirst sep rest

/-- The text after the last non-overlapping occurrence of the separator,
or the whole text when the separator is absent: the last element of a
Python split (fuel-based structural recursion, started at the text
length). -/
def afterLastF (sep : List Char) : Nat → List Char → List Char
  | 0, l => l
  | fuel + 1, l =>
    if subListOf sep l then
      if sep.isPrefixOf l then afterLastF sep fuel (l.drop sep.length)
      else
        match l with
        | [] => []
        | _ :: rest => afterLastF sep fuel rest
    else l

/-- Last element of a Python split at adequate fuel. -/
def afterLast (sep l : List Char) : List Char := afterLastF sep l.length l

/-- Strip leading and trailing whitespace, embedding str.strip(). -/
def pyStrip (l : List Char) : List Char :=
  ((l.dropWhile isPySpace).reverse.dropWhile isPySpace).reverse

/-- Subject extraction from the plan text (manager.py line 61): the text
after the last Subject: marker, stripped, truncated at the first
newline; the ambient subject when no marker is present. -/
def extractSubject (plan subject : String) : String :=
  if containsSub "Subject:" plan then
    ⟨(pyStrip (afterLast "Subject:".data plan.data)).takeWhile (fun c => c ≠ '\n')⟩
  else subject

/-- The reference-material marker (manager.py line 68). -/
def refMarker : String := "\n\n--- REFERENCE MATERIAL"

/-- Strip attached reference material from a blueprint before storage
(manager.py line 68): the text before the first marker. -/
def cleanBlueprint (plan : String) : String :=
  ⟨beforeFirst refMarker.data plan.data⟩

/-- The body of the per-question task (manager.py lines 56-102): an
uncaught exception is modelled by the error case; otherwise a Question is
built exactly when the generator produced a draft and the translation is
present. -/
def perQuestionBody (start idx : Nat) (plan subject : String)
    (o : PlanOutcome) : Except String (Option Question) :=
  if o.crash then .error "task failed" else
  .ok (
    match o.gen with
    | none => none
    | some que =>
      match translateQuestion o.trans with
      | none => none
      | some qh => some {
          question_number := start + idx
          question_english := que.question
          options_english := que.options
          question_hindi := qh.question
          options_hindi := qh.options
          answer := que.answer
          question_blueprint := cleanBlueprint plan
          subject := extractSubject plan subject })

/-- The per-question task with its blanket catch (manager.py
lines 103-105): any exception becomes a dropped none result. -/
def perQuestionExecution (start idx : Nat) (plan subject : String)
    (o : PlanOutcome) : Option Question :=
  match perQuestionBody start idx plan subject o with
  | .ok r => r
  | .error _ => none

/-- Split a list into consecutive chunks of fifteen, the chunk-jump of
manager.py line 113 (fuelled structural recursion; the fuel never runs
out when started at the length of the list). -/
def chunks15F {α : Type} : Nat → List α → List (List α)
  | 0, _ => []
  | _ + 1, [] => []
  | fuel + 1, a :: t => ((a :: t).take 15) :: chunks15F fuel ((a :: t).drop 15)

/-- Chunks of fifteen at adequate fuel. -/
def chunks15 {α : Type} (l : List α) : List (List α) := chunks15F l.length l

/-- Question ordering key used by the final sort (manager.py line 138). -/
def qleb (a b : Question) : Bool := a.question_number ≤ b.question_number

/-- The per-plan result of a batch run, in dispatch order. -/
def planResults (plans : List String) (subject : String) (start : Nat)
    (o : Nat → PlanOutcome) : List (Option Question) :=
  plans.enum.map (fun ip => perQuestionExecution start ip.1 ip.2 subject (o ip.1))

/-- The batch collation (manager.py lines 107-147): enumerate the plans,
process them in chunks of fifteen (the gather call preserves submission
order inside a chunk and the per-question task never raises, so each
chunk contributes its results in order), drop the none results, and sort
by the question number assigned at dispatch. -/
def collateQuestions (plans : List String) (subject : String) (start : Nat)
    (o : Nat → PlanOutcome) : TestPaper :=
  let modified := plans.enum
  let allData := ((chunks15 modified).map
    (fun ch => ch.map
      (fun ip => perQuestionExecution start ip.1 ip.2 subject (o ip.1)))).flatten
  let finalData := allData.filterMap id
  ⟨finalData.mergeSort qleb⟩

/-- The outer driver (manager.py lines 257-259 and 282-286): a planner
failure, or a planner returning no plans, yields the empty paper without
dispatching anything; otherwise the plans are collated.  The usage and
research bookkeeping of the source carries no questions and is not
modelled. -/
def generateQuestions (plansResponse : Option (List String)) (subject : String)
    (start : Nat) (o : Nat → PlanOutcome) : TestPaper :=
  match plansResponse with
  | none => ⟨[]⟩
  | some [] => ⟨[]⟩
  | some plans => collateQuestions plans subject start o

/-! ### Generator loop lemmas -/

/-- Number of attempts consumed by the loop. -/
def GenOutcome.used : GenOutcome → Nat
  | .returned _ n => n
  | .exhausted _ n => n

/-- An attempt that does not succeed: either the remote call raised, or it
produced a draft failing at least one validator check. -/
def attemptFails (blueprint : String) (att : Nat → Except String QuestionLLM)
    (j : Nat) : Prop :=
  (∃ e, att j = .error e) ∨
  (∃ q, att j = .ok q ∧ passesAllChecks q blueprint = false)

/-! ### Concrete scenario inputs used by the claim theorems -/

/-- A critical four-statement blueprint. -/
def bpCritical : String := "Multiple-Statement-4 (Correct)"

/-- A draft with only three numbered statements and a valid closing
question: it fails the statement-completeness check against a
four-statement blueprint. -/
def draftThreeOfFour : QuestionLLM :=
  ⟨"1. A\n2. B\n3. C\nWhich of the statements given above is/are correct?",
   ["opt a", "opt b", "opt c", "opt d"], 'A'⟩

/-- A non-critical sequencing blueprint. -/
def bpSeq : String := "Chronological Ordering"

/-- A sequencing draft whose correct option is the forbidden ascending
sequence: it fails only the sequence-randomization check. -/
def qBadSeq : QuestionLLM :=
  ⟨"Arrange the events", ["1-2-3-4", "opt b", "opt c", "opt d"], 'A'⟩

/-- A sequencing draft with a shuffled answer sequence: it passes all
checks. -/
def qGoodSeq : QuestionLLM :=
  ⟨"Arrange the events", ["2-3-1-4", "opt b", "opt c", "opt d"], 'A'⟩

/-- Attempt oracle: two validation failures, then a passing draft. -/
def attC5 : Nat → Except String QuestionLLM :=
  fun j => if j < 2 then .ok qBadSeq else .ok qGoodSeq

/-- Attempt oracle: two validation failures, then a remote exception. -/
def attC10 : Nat → Except String QuestionLLM :=
  fun j => if j < 2 then .ok qBadSeq else .error "remote failure"

/-- A sequencing draft whose correct option carries the descending
sequence written with en dashes and spaces. -/
def qEnDashSeq : QuestionLLM :=
  ⟨"Arrange the events", ["4 – 3 – 2 – 1", "opt b", "opt c", "opt d"], 'A'⟩

/-- A draft with four numbered statements and the closing question. -/
def draftFourOfFour : QuestionLLM :=
  ⟨"1. A\n2. B\n3. C\n4. D\nWhich of the statements given above is/are correct?",
   ["opt a", "opt b", "opt c", "opt d"], 'A'⟩

/-! ### Concrete batch inputs for the manager witnesses -/

/-- A generated draft used in the batch witnesses. -/
def qGenW : QuestionLLM := ⟨"Q text", ["w", "x", "y", "z"], 'B'⟩

/-- A translated rendering used in the batch witnesses. -/
def qHinW : QuestionLLMHindi := ⟨"Qh text", ["hw", "hx", "hy", "hz"]⟩

/-- Three plans dispatched in the batch witnesses. -/
def plansW : List String := ["p0", "p1", "p2"]

/-- A fully successful per-plan outcome. -/
def okOutcome : PlanOutcome := ⟨false, some qGenW, .ok (some qHinW)⟩

/-- A generator-exhaustion outcome (the generator returned nothing). -/
def genFailOutcome : PlanOutcome := ⟨false, none, .ok (some qHinW)⟩

/-- Batch outcomes where only the middle plan fails (generator). -/
def oW : Nat → PlanOutcome := fun i => if i = 1 then genFailOutcome else okOutcome

/-- Batch outcomes where the middle plan's task crashes. -/
def oWc : Nat → PlanOutcome :=
  fun i => if i = 1 then ⟨true, some qGenW, .ok (some qHinW)⟩ else oW i

/-- Batch outcomes where the middle plan's translation call raises. -/
def oWt : Nat → PlanOutcome :=
  fun i => if i = 1 then ⟨false, some qGenW, .error "remote failure"⟩ else oW i

/-- The question produced by plan zero at start number ten. -/
def qW0 : Question :=
  ⟨10, "Q text", ["w", "x", "y", "z"], "Qh text", ["hw", "hx", "hy", "hz"],
   'B', "p0", "General"⟩

/-- The question produced by plan two at start number ten. -/
def qW2 : Question :=
  ⟨12, "Q text", ["w", "x", "y", "z"], "Qh text", ["hw", "hx", "hy", "hz"],
   'B', "p2", "General"⟩

/-! ### Weighted distribution (main.py lines 373-500)

The allocation works over exact rationals; Python's float round is
embedded as round-half-to-even on rationals.  The constants below are
written with mkRat because rational division is reduction-opaque in this
toolchain; lemmas relate them to the usual quotients. -/

/-- One half. -/
def oneHalfQ : ℚ := mkRat 1 2

/-- One hundredth, the divisor of the percentage shares. -/
def hundredthQ : ℚ := mkRat 1 100

/-- One tenth, the scale of one-decimal rounding. -/
def tenthQ : ℚ := mkRat 1 10

/-- Floor of a rational, computably. -/
def ratFloor (q : ℚ) : ℤ := q.num / q.den

/-- Python round on a rational: nearest integer, ties to even
(banker's rounding). -/
def pyRound (q : ℚ) : ℤ :=
  if q - ratFloor q < oneHalfQ then ratFloor q
  else if oneHalfQ < q - ratFloor q then ratFloor q + 1
  else if ratFloor q % 2 = 0 then ratFloor q else ratFloor q + 1

/-- The exact (unrounded) share of the total for a percentage weight:
total times weight over one hundred (main.py line 457). -/
def exactShare (total : Nat) (p : ℚ) : ℚ := (total : ℚ) * p * hundredthQ

/-- Python round to one decimal digit (main.py lines 425, 432, 441). -/
def roundTo1 (q : ℚ) : ℚ := (pyRound (q * 10) : ℤ) * tenthQ

/-- The pattern key reserved for History (main.py line 426). -/
def chronKey : String := "Chronological Ordering"

/-- The pattern key reserved for Geography (main.py line 433). -/
def geoKey : String := "Geographical Sequencing"

/-- Dict assignment on an association list: update every entry with the
key when present, append otherwise (Python dict update preserves
insertion order; assignment of a fresh key appends). -/
def setKey (l : List (String × ℚ)) (k : String) (v : ℚ) : List (String × ℚ) :=
  if l.any (fun p => p.1 = k) then
    l.map (fun p => if p.1 = k then (p.1, v) else p)
  else l ++ [(k, v)]

/-- The subject-specific adjustment of the working distribution
(main.py lines 414-442): History reserves twenty percent for
chronological ordering and scales the rest by four fifths; Geography
reserves fifteen percent for geographical sequencing and scales
everything except the two sequence keys by seventeen twentieths; any
other subject (or none) gives chronological ordering five percent when
that key exists, scaling the rest by nineteen twentieths.  The subject
test lowers the subject name, and an absent subject matches nothing. -/
def subjectIs (subject : Option String) (name : String) : Bool :=
  match subject with
  | some s => lowerStr s = name
  | none => false

/-- The History scaling of one entry: everything but the chronological
key is scaled by four fifths and rounded to one decimal
(main.py lines 422-425). -/
def histMap (p : String × ℚ) : String × ℚ :=
  if p.1 = chronKey then p else (p.1, roundTo1 (p.2 * mkRat 8 10))

/-- The Geography scaling of one entry: everything but the two sequence
keys is scaled by seventeen twentieths and rounded to one decimal
(main.py lines 429-432). -/
def geoMap (p : String × ℚ) : String × ℚ :=
  if p.1 = geoKey || p.1 = chronKey then p
  else (p.1, roundTo1 (p.2 * mkRat 85 100))

/-- The generic scaling of one entry: everything but the chronological
key is scaled by nineteen twentieths and rounded to one decimal
(main.py lines 438-441). -/
def otherMap (p : String × ℚ) : String × ℚ :=
  if p.1 = chronKey then p else (p.1, roundTo1 (p.2 * mkRat 95 100))

/-- The subject-conditional derivation of the working distribution
(main.py lines 414-442), as described above. -/
def adjustDist (dist : List (String × ℚ)) (subject : Option String) :
    List (String × ℚ) :=
  if subjectIs subject "history" then
    setKey (dist.map histMap) chronKey 20
  else if subjectIs subject "geography" then
    setKey (dist.map geoMap) geoKey 15
  else if dist.any (fun p => p.1 = chronKey) then
    setKey (dist.map otherMap) chronKey 5
  else dist

/-- Stable insertion into a descending-by-weight list: an element goes
before the first strictly-smaller entry and after earlier equal ones, so
ties keep their original order, as Python's stable sort does. -/
def insertDesc (x : String × ℚ) : List (String × ℚ) → List (String × ℚ)
  | [] => [x]
  | y :: t => if y.2 ≤ x.2 then x :: y :: t else y :: insertDesc x t

/-- Stable descending sort by weight (main.py line 452). -/
def sortDesc : List (String × ℚ) → List (String × ℚ)
  | [] => []
  | x :: t => insertDesc x (sortDesc t)

/-- First allocation pass (main.py lines 454-460): per item, the rounded
share capped at the remaining budget, the budget decreasing as
allocated. -/
def allocFirstPass (total : Nat) :
    List (String × ℚ) → Nat → List (String × ℚ × Nat) × Nat
  | [], rem => ([], rem)
  | (o, p) :: t, rem =>
    let c := min (pyRound (exactShare total p)).toNat rem
    let (rest, rem2) := allocFirstPass total t (rem - c)
    ((o, p, c) :: rest, rem2)

/-- Second allocation pass (main.py lines 462-472): walk the items once,
granting one extra unit to each item still below its theoretical maximum
(the floored share plus one) until the remainder is gone. -/
def allocSecondPass (total : Nat) :
    List (String × ℚ × Nat) → Nat → List (String × ℚ × Nat) × Nat
  | [], rem => ([], rem)
  | (o, p, c) :: t, rem =>
    if rem = 0 then ((o, p, c) :: t, 0)
    else if c < (ratFloor (exactShare total p)).toNat + 1 then
      let (rest, rem2) := allocSecondPass total t (rem - 1)
      ((o, p, c + 1) :: rest, rem2)
    else
      let (rest, rem2) := allocSecondPass total t rem
      ((o, p, c) :: rest, rem2)

/-- The per-category allocation of the weighted branch of
get-distribution (main.py lines 444-472): adjust for the subject, keep
the strictly positive weights, sort descending, run the two passes. -/
def getDistributionCounts (total : Nat) (dist : List (String × ℚ))
    (subject : Option String) : List (String × ℚ × Nat) :=
  let items := sortDesc ((adjustDist dist subject).filter (fun p => 0 < p.2))
  let fp := allocFirstPass total items total
  if 0 < fp.2 then (allocSecondPass total fp.1 fp.2).1 else fp.1

/-- The result list built from the allocation (main.py lines 474-479):
each option repeated its allocated count of times, in allocation
order. -/
def getDistribution (total : Nat) (dist : List (String × ℚ))
    (subject : Option String) : List String :=
  (getDistributionCounts total dist subject).flatMap
    (fun x => List.replicate x.2.2 x.1)

/-- Sum of the allocated per-category counts. -/
def sumCounts (alloc : List (String × ℚ × Nat)) : Nat :=
  (alloc.map (fun x => x.2.2)).sum

/-- Number of items still below their theoretical maximum, the items the
second pass may top up. -/
def eligCount (total : Nat) (alloc : List (String × ℚ × Nat)) : Nat :=
  alloc.countP (fun x => x.2.2 ≤ (ratFloor (exactShare total x.2.1)).toNat)

/-- The base pattern weight table (main.py lines 373-389). -/
def UPSC_PATTERN_DIST : List (String × ℚ) :=
  [("How Many - Statement", 30),
   ("Multiple-Statement-3 (Correct)", 10),
   ("Multiple-Statement-4 (Correct)", 4),
   ("Multiple-Statement-3 (Incorrect)", 4),
   ("Multiple-Statement-4 (Incorrect)", 2),
   ("Std 2-Stmt Assertion-Reason", 12),
   ("Complex 3-Stmt Assertion-Reason", 8),
   ("Multiple-Statement-2 (Correct)", 7),
   ("Multiple-Statement-2 (Incorrect)", 3),
   ("How Many Pairs Correct/Incorrect", 6),
   ("How Many Sets/Triplets", 4),
   ("Standard Single-Correct", 10),
   ("Chronological Ordering", 0),
   ("Geographical Sequencing", 0),
   ("Standard Single-Incorrect", 0)]

/-- The cognitive-level weight table (main.py lines 391-396). -/
def UPSC_COGNITIVE_DIST : List (String × ℚ) :=
  [("Comprehension/Conceptual", 40),
   ("Application/Analysis", 30),
   ("Recall/Recognition", 20),
   ("Higher Reasoning/Synthesis", 10)]

/-- The difficulty weight table (main.py lines 398-402). -/
def UPSC_DIFFICULTY_DIST : List (String × ℚ) :=
  [("Moderate", 50), ("Difficult", 35), ("Easy", 15)]

theorem lenDropWhileLe (p : Char → Bool) (l : List Char) :
    (l.dropWhile p).length ≤ l.length :=
  (List.dropWhile_sublist p).length_le

theorem matchNumberedHere_length {l : List Char} {n : Nat} {r : List Char}
    (h : matchNumberedHere l = some (n, r)) : r.length < l.length := by
  unfold matchNumberedHere at h
  simp only [List.span_eq_take_drop] at h
  split at h
  · exact absurd h (by simp)
  · split at h
    · rename_i r3 heq
      split at h
      · exact absurd h (by simp)
      · simp only [Option.some.injEq, Prod.mk.injEq] at h
        have h4 : r.length ≤ r3.length := by
          rw [← h.2]; exact lenDropWhileLe _ _
        have h3 : r3.length <
            (List.dropWhile isPySpace l).length := by
          have hx : (List.dropWhile isPyDigit (List.dropWhile isPySpace l)).length ≤
              (List.dropWhile isPySpace l).length := lenDropWhileLe _ _
          rw [heq] at hx
          simp only [List.length_cons] at hx
          omega
        have h1 : (List.dropWhile isPySpace l).length ≤ l.length :=
          lenDropWhileLe _ _
        omega
    · exact absurd h (by simp)

theorem scanNumberedF_fuel : ∀ (f f' : Nat) (l : List Char),
    l.length ≤ f → l.length ≤ f' → scanNumberedF f l = scanNumberedF f' l := by
  intro f
  induction f with
  | zero =>
    intro f' l hf hf'
    have : l = [] := List.length_eq_zero.mp (Nat.le_zero.mp hf)
    subst this
    cases f' <;> rfl
  | succ f ih =>
    intro f' l hf hf'
    match l with
    | [] => cases f' <;> rfl
    | c :: rest =>
      match f' with
      | 0 => exact absurd hf' (by simp)
      | f'' + 1 =>
        simp only [List.length_cons] at hf hf'
        by_cases hc : c = '\n'
        · subst hc
          match hm : matchNumberedHere rest with
          | some (n, r) =>
            have hr := matchNumberedHere_length hm
            have hih := ih f'' r (by omega) (by omega)
            simp only [scanNumberedF, hm, hih, if_true]
          | none =>
            have hih := ih f'' rest (by omega) (by omega)
            simp only [scanNumberedF, hm, hih, if_true]
        · have hih := ih f'' rest (by omega) (by omega)
          simp only [scanNumberedF, if_neg hc, hih]

theorem tryDotWs_length {v n : Nat} {l r : List Char}
    (h : tryDotWs v l = some (n, r)) : r.length < l.length := by
  unfold tryDotWs at h
  split at h
  · rename_i r0
    simp only [List.span_eq_take_drop] at h
    split at h
    · exact absurd h (by simp)
    · simp only [Option.some.injEq, Prod.mk.injEq] at h
      have hr : r.length ≤ r0.length := by
        rw [← h.2]; exact lenDropWhileLe _ _
      simp only [List.length_cons]
      omega
  · exact absurd h (by simp)

theorem tryIRun_length {k n : Nat} {l r : List Char}
    (h : tryIRun k l = some (n, r)) : r.length < l.length := by
  induction k with
  | zero => simp [tryIRun] at h
  | succ k ih =>
    unfold tryIRun at h
    split at h
    · rename_i x heq
      injection h with h
      subst h
      have := tryDotWs_length heq
      have hd : (l.drop (k + 1)).length ≤ l.length := by
        simp only [List.length_drop]; omega
      omega
    · exact ih h

theorem romanTail_length {n : Nat} {l r : List Char}
    (h : romanTail l = some (n, r)) : r.length < l.length := by
  unfold romanTail at h
  split at h
  · rename_i a b rest
    split at h
    · have := tryDotWs_length h
      simp only [List.length_cons] at *
      omega
    · split at h
      · have := tryDotWs_length h
        simp only [List.length_cons] at *
        omega
      · exact absurd h (by simp)
  · rename_i a
    split at h
    · have := tryDotWs_length h
      simp only [List.length_cons, List.length_nil] at *
      omega
    · exact absurd h (by simp)
  · exact absurd h (by simp)

theorem romanAltHere_length {n : Nat} {l r : List Char}
    (h : romanAltHere l = some (n, r)) : r.length < l.length := by
  unfold romanAltHere at h
  split at h
  · rename_i x heq
    injection h with h; subst h
    exact tryIRun_length heq
  · exact romanTail_length h

theorem matchRomanHere_length {n : Nat} {l r : List Char}
    (h : matchRomanHere l = some (n, r)) : r.length < l.length :=
  calc r.length < (l.dropWhile isPySpace).length := by
        apply romanAltHere_length (l := l.dropWhile isPySpace) (r := r) (n := n)
        unfold matchRomanHere at h
        simpa [List.span_eq_take_drop] using h
    _ ≤ l.length := lenDropWhileLe _ _

theorem scanRomanF_fuel : ∀ (f f' : Nat) (l : List Char),
    l.length ≤ f → l.length ≤ f' → scanRomanF f l = scanRomanF f' l := by
  intro f
  induction f with
  | zero =>
    intro f' l hf hf'
    have : l = [] := List.length_eq_zero.mp (Nat.le_zero.mp hf)
    subst this
    cases f' <;> rfl
  | succ f ih =>
    intro f' l hf hf'
    match l with
    | [] => cases f' <;> rfl
    | c :: rest =>
      match f' with
      | 0 => exact absurd hf' (by simp)
      | f'' + 1 =>
        simp only [List.length_cons] at hf hf'
        by_cases hc : c = '\n'
        · subst hc
          match hm : matchRomanHere rest with
          | some (n, r) =>
            have hr := matchRomanHere_length hm
            have hih := ih f'' r (by omega) (by omega)
            simp only [scanRomanF, hm, hih, if_true]
          | none =>
            have hih := ih f'' rest (by omega) (by omega)
            simp only [scanRomanF, hm, hih, if_true]
        · have hih := ih f'' rest (by omega) (by omega)
          simp only [scanRomanF, if_neg hc, hih]

theorem labelGroup_length {n : Nat} {l r : List Char}
    (h : labelGroup l = some (n, r)) : r.length < l.length := by
  unfold labelGroup at h
  split at h
  · exact absurd h (by simp)
  · rename_i c cs
    split at h
    · rename_i hI
      simp only [Option.some.injEq, Prod.mk.injEq] at h
      have hk : 1 ≤ min 3 ((c :: cs).takeWhile isCharI).length := by
        have hcons : (c :: cs).takeWhile isCharI = c :: cs.takeWhile isCharI := by
          simp [List.takeWhile_cons, hI]
        rw [hcons]
        simp
      have hrlen : r.length ≤ cs.length := by
        rw [← h.2]
        have hd := List.length_drop (min 3 ((c :: cs).takeWhile isCharI).length)
          (c :: cs)
        simp only [List.length_cons] at hd
        omega
      simp only [List.length_cons]
      omega
    · split at h
      · simp only [List.span_eq_take_drop, Option.some.injEq, Prod.mk.injEq] at h
        have hrlen : r.length ≤ cs.length := by
          rw [← h.2]
          rename_i hnotI hdig
          have hx : List.dropWhile isPyDigit (c :: cs) = cs.dropWhile isPyDigit := by
            simp [List.dropWhile_cons, hdig]
          rw [hx]
          exact lenDropWhileLe _ _
        simp only [List.length_cons]
        omega
      · exact absurd h (by simp)

theorem matchStatementHere_length {n : Nat} {l r : List Char}
    (h : matchStatementHere l = some (n, r)) : r.length < l.length := by
  unfold matchStatementHere at h
  split at h
  · rename_i htake
    have h9 : 9 ≤ l.length := by
      have hlen := congrArg List.length htake
      simp only [List.length_map, List.length_take] at hlen
      rw [show ("statement".data).length = 9 from rfl] at hlen
      omega
    have hlt := labelGroup_length h
    exact lt_of_lt_of_le hlt (le_trans (lenDropWhileLe _ _)
      (by simp only [List.length_drop]; omega))
  · exact absurd h (by simp)

theorem scanLabelsF_fuel : ∀ (f f' : Nat) (l : List Char),
    l.length ≤ f → l.length ≤ f' → scanLabelsF f l = scanLabelsF f' l := by
  intro f
  induction f with
  | zero =>
    intro f' l hf hf'
    have : l = [] := List.length_eq_zero.mp (Nat.le_zero.mp hf)
    subst this
    cases f' <;> rfl
  | succ f ih =>
    intro f' l hf hf'
    match l with
    | [] => cases f' <;> rfl
    | c :: rest =>
      match f' with
      | 0 => exact absurd hf' (by simp)
      | f'' + 1 =>
        simp only [List.length_cons] at hf hf'
        match hm : matchStatementHere (c :: rest) with
        | some (n, r) =>
          have hr := matchStatementHere_length hm
          simp only [List.length_cons] at hr
          have hih := ih f'' r (by omega) (by omega)
          simp only [scanLabelsF, hm, hih]
        | none =>
          have hih := ih f'' rest (by omega) (by omega)
          simp only [scanLabelsF, hm, hih]

theorem genLoop_used_le (blueprint : String)
    (att : Nat → Except String QuestionLLM) :
    ∀ (fuel i : Nat) (last : Option QuestionLLM),
      (genLoop blueprint att fuel i last).used ≤ i + fuel := by
  intro fuel
  induction fuel with
  | zero => intro i last; simp [genLoop, GenOutcome.used]
  | succ fuel ih =>
    intro i last
    simp only [genLoop]
    match att i with
    | .error e =>
      by_cases hf : fuel = 0
      · simp [hf, GenOutcome.used]
      · simp only [if_neg hf]
        have := ih (i + 1) last
        omega
    | .ok q =>
      by_cases hf : fuel = 0
      · simp [hf, GenOutcome.used]
      · by_cases hp : passesAllChecks q blueprint = true
        · simp [if_neg hf, hp, GenOutcome.used]
        · have hp' : passesAllChecks q blueprint = false := by simpa using hp
          simp only [if_neg hf, hp', Bool.false_eq_true, if_false]
          have := ih (i + 1) (some q)
          omega

theorem generateQuestion_snd (blueprint : String)
    (att : Nat → Except String QuestionLLM) :
    (generateQuestion blueprint att).2 =
      (genLoop blueprint att (maxRetries blueprint) 0 none).used := by
  unfold generateQuestion
  cases genLoop blueprint att (maxRetries blueprint) 0 none with
  | returned r n => rfl
  | exhausted last n =>
    cases last with
    | none =>
      by_cases hc : isCriticalPattern blueprint = true <;>
        simp [hc, GenOutcome.used]
    | some q =>
      by_cases hc : isCriticalPattern blueprint = true
      · by_cases hv : (!validateStatementCompleteness q blueprint
            || !validateClosingQuestion q blueprint) = true
        · simp [hc, hv, GenOutcome.used]
        · have hv' : (!validateStatementCompleteness q blueprint
              || !validateClosingQuestion q blueprint) = false := by
            simpa using hv
          simp [hc, hv', GenOutcome.used]
      · simp [hc, GenOutcome.used]

theorem generateQuestion_used_le (blueprint : String)
    (att : Nat → Except String QuestionLLM) :
    (generateQuestion blueprint att).2 ≤ maxRetries blueprint := by
  rw [generateQuestion_snd]
  have h := genLoop_used_le blueprint att (maxRetries blueprint) 0 none
  simpa using h

theorem genLoop_first_success (blueprint : String)
    (att : Nat → Except String QuestionLLM) :
    ∀ (k fuel i : Nat) (last : Option QuestionLLM) (q : QuestionLLM),
      k < fuel → att (i + k) = .ok q → passesAllChecks q blueprint = true →
      (∀ j, j < k → attemptFails blueprint att (i + j)) →
      genLoop blueprint att fuel i last = .returned (some q) (i + k + 1) := by
  intro k
  induction k with
  | zero =>
    intro fuel i last q hk hok hpass _
    match fuel, hk with
    | f + 1, _ =>
      simp only [Nat.add_zero] at hok
      simp only [genLoop, hok]
      by_cases hf : f = 0
      · simp [hf]
      · simp [hf, hpass]
  | succ k ih =>
    intro fuel i last q hk hok hpass hfails
    match fuel, hk with
    | f + 1, hk2 =>
      have hf : f ≠ 0 := by omega
      have h0 := hfails 0 (Nat.succ_pos k)
      simp only [Nat.add_zero] at h0
      rcases h0 with ⟨e, he⟩ | ⟨q', hq', hq'fail⟩
      · simp only [genLoop, he, if_neg hf]
        have := ih f (i + 1) last q (by omega)
          (by rw [show i + 1 + k = i + (k + 1) from by omega]; exact hok) hpass
          (fun j hj => by
            rw [show i + 1 + j = i + (j + 1) from by omega]
            exact hfails (j + 1) (by omega))
        rw [show i + (k + 1) + 1 = i + 1 + k + 1 from by omega]
        exact this
      · simp only [genLoop, hq', if_neg hf, hq'fail, if_false]
        have := ih f (i + 1) (some q') q (by omega)
          (by rw [show i + 1 + k = i + (k + 1) from by omega]; exact hok) hpass
          (fun j hj => by
            rw [show i + 1 + j = i + (j + 1) from by omega]
            exact hfails (j + 1) (by omega))
        rw [show i + (k + 1) + 1 = i + 1 + k + 1 from by omega]
        exact this

theorem genLoop_error_last (blueprint : String)
    (att : Nat → Except String QuestionLLM) :
    ∀ (fuel i : Nat) (last : Option QuestionLLM),
      1 ≤ fuel →
      (∀ j, j < fuel - 1 → attemptFails blueprint att (i + j)) →
      (∃ e, att (i + (fuel - 1)) = .error e) →
      genLoop blueprint att fuel i last = .returned none (i + fuel) := by
  intro fuel
  induction fuel with
  | zero => omega
  | succ fuel ih =>
    intro i last _ hfails herr
    by_cases hf : fuel = 0
    · subst hf
      obtain ⟨e, he⟩ := herr
      simp only [Nat.add_sub_cancel, Nat.add_zero] at he
      simp [genLoop, he]
    · have h0 := hfails 0 (by omega)
      simp only [Nat.add_zero] at h0
      rcases h0 with ⟨e, he⟩ | ⟨q', hq', hq'fail⟩
      · simp only [genLoop, he, if_neg hf]
        have := ih (i + 1) last (by omega)
          (fun j hj => by
            rw [show i + 1 + j = i + (j + 1) from by omega]
            exact hfails (j + 1) (by omega))
          (by
            obtain ⟨e', he'⟩ := herr
            refine ⟨e', ?_⟩
            rw [show i + 1 + (fuel - 1) = i + (fuel + 1 - 1) from by omega]
            exact he')
        rw [show i + (fuel + 1) = i + 1 + fuel from by omega]
        exact this
      · simp only [genLoop, hq', if_neg hf, hq'fail, if_false]
        have := ih (i + 1) (some q') (by omega)
          (fun j hj => by
            rw [show i + 1 + j = i + (j + 1) from by omega]
            exact hfails (j + 1) (by omega))
          (by
            obtain ⟨e', he'⟩ := herr
            refine ⟨e', ?_⟩
            rw [show i + 1 + (fuel - 1) = i + (fuel + 1 - 1) from by omega]
            exact he')
        rw [show i + (fuel + 1) = i + 1 + fuel from by omega]
        exact this

theorem maxRetries_pos (blueprint : String) : 1 ≤ maxRetries blueprint := by
  unfold maxRetries
  split <;> omega

/-- Claim C1 (code bug): the spec says that a critical pattern exhausting
all attempts must re-run the statement-completeness and closing-question
checks on the final draft and return an explicit failure when either
still fails.  The code cannot do this: every retry guard in the loop
tests attempt below max-retries-minus-one, so on the final attempt a
validation failure falls through to the unconditional return of the
draft (generator.py line 330) and the re-check block after the loop
(lines 339-357) is unreachable.  Concretely: a four-statement critical
blueprint whose five attempts all produce a three-statement draft gets
that defective draft back, not the explicit failure the spec requires,
even though the draft still fails the statement-completeness check. -/
theorem claim_C1_critical_exhaustion_returns_defective_draft :
    isCriticalPattern bpCritical = true ∧
    maxRetries bpCritical = 5 ∧
    validateStatementCompleteness draftThreeOfFour bpCritical = false ∧
    generateQuestion bpCritical (fun _ => .ok draftThreeOfFour) =
      (some draftThreeOfFour, 5) := by
  refine ⟨by decide, by decide, by decide, ?_⟩
  rfl

/-- Claim C5: the Generator spends at most five attempts on a critical
pattern and at most three otherwise, and the first attempt whose draft
passes all four validator checks is returned immediately, spending no
further attempts. -/
theorem claim_C5_retry_budget_and_first_success
    (blueprint : String) (att : Nat → Except String QuestionLLM) :
    ((generateQuestion blueprint att).2 ≤
      (if isCriticalPattern blueprint then 5 else 3)) ∧
    (∀ k q, k < maxRetries blueprint → att k = .ok q →
      passesAllChecks q blueprint = true →
      (∀ j, j < k → attemptFails blueprint att j) →
      generateQuestion blueprint att = (some q, k + 1)) := by
  constructor
  · have h := generateQuestion_used_le blueprint att
    simpa [maxRetries] using h
  · intro k q hk hok hpass hfails
    have h := genLoop_first_success blueprint att k (maxRetries blueprint) 0 none q
      hk (by simpa using hok) hpass (fun j hj => by simpa using hfails j hj)
    unfold generateQuestion
    rw [h]
    simp

/-- Witness for claim C5: a non-critical sequencing plan whose first two
attempts fail validation and whose third passes is returned from the
third attempt, with exactly three attempts spent. -/
theorem claim_C5_witness :
    generateQuestion bpSeq attC5 = (some qGoodSeq, 3) := by
  have h := (claim_C5_retry_budget_and_first_success bpSeq attC5).2 2 qGoodSeq
    (by decide) (by rfl) (by decide)
    (fun j hj => Or.inr ⟨qBadSeq,
      by show attC5 j = .ok qBadSeq; unfold attC5; rw [if_pos hj],
      by decide⟩)
  exact h

/-- Claim C10: when the remote call raises on the final attempt (all
earlier attempts having failed), the Generator returns none and the full
budget is spent — drafts parsed on earlier attempts are never returned. -/
theorem claim_C10_error_on_final_attempt_returns_none
    (blueprint : String) (att : Nat → Except String QuestionLLM)
    (hfails : ∀ j, j < maxRetries blueprint - 1 → attemptFails blueprint att j)
    (herr : ∃ e, att (maxRetries blueprint - 1) = .error e) :
    generateQuestion blueprint att = (none, maxRetries blueprint) := by
  have h := genLoop_error_last blueprint att (maxRetries blueprint) 0 none
    (maxRetries_pos blueprint)
    (fun j hj => by simpa using hfails j hj)
    (by simpa using herr)
  unfold generateQuestion
  rw [h]
  simp

/-- Witness for claim C10: two attempts produce a draft that fails only
validation, the third raises — the result is none, not the earlier
draft. -/
theorem claim_C10_witness :
    generateQuestion bpSeq attC10 = (none, 3) := by
  have hmr : maxRetries bpSeq = 3 := by decide
  have h := claim_C10_error_on_final_attempt_returns_none bpSeq attC10
    (fun j hj => Or.inr ⟨qBadSeq,
      by
        show attC10 j = .ok qBadSeq
        unfold attC10
        rw [if_pos (show j < 2 from by rw [hmr] at hj; omega)],
      by decide⟩)
    ⟨"remote failure", by rw [hmr]; rfl⟩
  rw [hmr] at h
  exact h

/-! ### Claims C7 and C8: validator characterizations -/

theorem isPySpace_dashmap (c : Char) :
    isPySpace (if c = '–' || c = '—' then '-' else c) = isPySpace c := by
  by_cases h : (c = '–' || c = '—') = true
  · rcases Bool.or_eq_true_iff.mp h with h1 | h1 <;>
      · have := of_decide_eq_true h1
        subst this
        decide
  · simp [h]

theorem stripSpaces_normalizeDashes (l : List Char) :
    stripSpaces (normalizeDashes l) = normalizeDashes (stripSpaces l) := by
  unfold stripSpaces normalizeDashes
  rw [List.filter_map]
  congr 1
  apply List.filter_congr
  intro c _
  simp only [Function.comp_apply, isPySpace_dashmap]

/-- Claim C7: for a sequencing blueprint, the sequence-randomization check
fails exactly when a four-element dash-separated numeral sequence is
extracted from the correct answer option and, after normalizing every
dash variant to the ASCII hyphen and stripping all whitespace, equals the
literal ascending or the literal descending sequence; any other extracted
sequence (or no extracted sequence) passes. -/
theorem claim_C7_sequence_check_characterization
    (q : QuestionLLM) (blueprint : String)
    (hseq : isSequencing blueprint = true) :
    validateSequenceRandomization q blueprint = false ↔
      ∃ m, firstSeqMatch (correctOption q).data = some m ∧
        (stripSpaces (normalizeDashes m) = "1-2-3-4".data ∨
         stripSpaces (normalizeDashes m) = "4-3-2-1".data) := by
  unfold validateSequenceRandomization
  rw [hseq]
  simp only [if_true]
  cases hm : firstSeqMatch (correctOption q).data with
  | none => simp
  | some m =>
    simp only [Option.some.injEq]
    constructor
    · intro h
      refine ⟨m, rfl, ?_⟩
      rw [stripSpaces_normalizeDashes]
      have hc : forbiddenSeqs.contains (normalizeDashes (stripSpaces m)) = true := by
        by_contra hb
        simp only [Bool.not_eq_true] at hb
        rw [hb] at h
        simp at h
      simpa [forbiddenSeqs] using hc
    · rintro ⟨m', hm', hor⟩
      subst hm'
      rw [stripSpaces_normalizeDashes] at hor
      have hc : forbiddenSeqs.contains (normalizeDashes (stripSpaces m)) = true := by
        simpa [forbiddenSeqs] using hor
      rw [hc]
      rfl

/-- Witness for claim C7: the spaced en-dash descending sequence fails the
check and the shuffled sequence passes. -/
theorem claim_C7_witness :
    isSequencing bpSeq = true ∧
    validateSequenceRandomization qEnDashSeq bpSeq = false ∧
    validateSequenceRandomization qGoodSeq bpSeq = true := by
  refine ⟨by decide, ?_, by decide⟩
  exact (claim_C7_sequence_check_characterization qEnDashSeq bpSeq (by decide)).mpr
    ⟨"4 – 3 – 2 – 1".data, by decide, Or.inr (by decide)⟩

/-- Claim C8: for a plan naming a required statement count (a
multiple-statement label with an explicit digit, or a three-statement
assertion-reason marker requiring three), the statement-completeness
check fails exactly when the maximum of the three counting heuristics
(highest line-start number before a dot, highest line-start roman
numeral, highest explicit statement-label index) is below the required
count. -/
theorem claim_C8_statement_count_characterization
    (q : QuestionLLM) (blueprint : String) (n : Nat)
    (hreq : (searchMS (lowerStr blueprint).data = some n ∧
             containsSub "3-stmt assertion" (lowerStr blueprint) = false ∧
             containsSub "complex 3-stmt" (lowerStr blueprint) = false) ∨
            (searchMS (lowerStr blueprint).data = none ∧
             (containsSub "3-stmt assertion" (lowerStr blueprint) = true ∨
              containsSub "complex 3-stmt" (lowerStr blueprint) = true) ∧
             n = 3)) :
    (validateStatementCompleteness q blueprint = false ↔
      max (countNumbered q.question.data)
        (max (countRoman q.question.data) (countLabels q.question.data)) < n) := by
  have hcount : countStatements q.question.data =
      max (countNumbered q.question.data)
        (max (countRoman q.question.data) (countLabels q.question.data)) := rfl
  unfold validateStatementCompleteness
  rcases hreq with ⟨hms, h1, h2⟩ | ⟨hms, hmark, hn⟩
  · simp only [hms, h1, h2, hcount, Bool.or_self, Bool.false_and,
      Bool.false_eq_true, if_false]
    by_cases hlt : max (countNumbered q.question.data)
        (max (countRoman q.question.data) (countLabels q.question.data)) < n
    · simp [hlt]
    · simp [hlt]
  · subst hn
    simp only [hms, hcount]
    rcases hmark with hmk | hmk
    · simp only [hmk, Bool.true_or, Bool.true_and]
      by_cases hlt : max (countNumbered q.question.data)
          (max (countRoman q.question.data) (countLabels q.question.data)) < 3
      · simp [hlt]
      · simp [hlt]
    · simp only [hmk, Bool.or_true, Bool.true_and]
      by_cases hlt : max (countNumbered q.question.data)
          (max (countRoman q.question.data) (countLabels q.question.data)) < 3
      · simp [hlt]
      · simp [hlt]

/-- Witness for claim C8: three numbered lines against a four-statement
requirement fail with counted maximum three; four numbered lines pass. -/
theorem claim_C8_witness :
    validateStatementCompleteness draftThreeOfFour bpCritical = false ∧
    countStatements draftThreeOfFour.question.data = 3 ∧
    validateStatementCompleteness draftFourOfFour bpCritical = true := by
  refine ⟨?_, by decide, by decide⟩
  exact (claim_C8_statement_count_characterization draftThreeOfFour bpCritical 4
    (Or.inl ⟨by decide, by decide, by decide⟩)).mpr (by decide)

/-! ### Batch collation lemmas -/

theorem chunks15F_flatten {α : Type} :
    ∀ (f : Nat) (l : List α), l.length ≤ f → (chunks15F f l).flatten = l := by
  intro f
  induction f with
  | zero =>
    intro l hf
    have : l = [] := List.length_eq_zero.mp (Nat.le_zero.mp hf)
    subst this
    rfl
  | succ f ih =>
    intro l hf
    match l with
    | [] => rfl
    | a :: t =>
      show ((a :: t).take 15 ++ (chunks15F f ((a :: t).drop 15)).flatten) = a :: t
      rw [ih ((a :: t).drop 15)
        (by simp only [List.length_drop, List.length_cons]; simp at hf; omega)]
      exact List.take_append_drop 15 (a :: t)

theorem chunks15_flatten {α : Type} (l : List α) : (chunks15 l).flatten = l :=
  chunks15F_flatten l.length l le_rfl

theorem collate_questions_eq (plans : List String) (subject : String)
    (start : Nat) (o : Nat → PlanOutcome) :
    (collateQuestions plans subject start o).questions =
      ((planResults plans subject start o).filterMap id).mergeSort qleb := by
  unfold collateQuestions planResults
  simp only
  rw [← List.map_flatten, chunks15_flatten]

theorem perQuestionExecution_number {start idx : Nat} {plan subject : String}
    {oo : PlanOutcome} {q : Question}
    (h : perQuestionExecution start idx plan subject oo = some q) :
    q.question_number = start + idx := by
  unfold perQuestionExecution perQuestionBody at h
  by_cases hc : oo.crash = true
  · simp [hc] at h
  · simp only [hc, Bool.false_eq_true, if_false] at h
    match hg : oo.gen with
    | none => rw [hg] at h; simp at h
    | some que =>
      rw [hg] at h
      match ht : translateQuestion oo.trans with
      | none => rw [ht] at h; simp at h
      | some qh =>
        rw [ht] at h
        simp only [Option.some.injEq] at h
        rw [← h]

theorem fst_le_of_mem_enumFrom {α : Type} :
    ∀ {l : List α} {n : Nat} {x : Nat × α}, x ∈ List.enumFrom n l → n ≤ x.1 := by
  intro l
  induction l with
  | nil => intro n x h; simp [List.enumFrom] at h
  | cons a t ih =>
    intro n x h
    rw [List.enumFrom_cons] at h
    rcases List.mem_cons.mp h with h1 | h1
    · subst h1; simp
    · have := ih h1; omega

theorem enumFrom_pairwise {α : Type} (l : List α) :
    ∀ n, (List.enumFrom n l).Pairwise (fun a b => a.1 < b.1) := by
  induction l with
  | nil => intro n; simp [List.enumFrom]
  | cons a t ih =>
    intro n
    rw [List.enumFrom_cons]
    refine List.Pairwise.cons ?_ (ih (n + 1))
    intro x hx
    have := fst_le_of_mem_enumFrom hx
    simp only
    omega

theorem enum_pairwise {α : Type} (l : List α) :
    l.enum.Pairwise (fun a b => a.1 < b.1) := by
  have h := enumFrom_pairwise l 0
  simpa [List.enum] using h

theorem planResults_pairwise (plans : List String) (subject : String)
    (start : Nat) (o : Nat → PlanOutcome) :
    ((planResults plans subject start o).filterMap id).Pairwise
      (fun a b => a.question_number < b.question_number) := by
  unfold planResults
  rw [List.filterMap_map]
  refine List.Pairwise.filterMap _ ?_ (enum_pairwise plans)
  intro a b hab x hx y hy
  simp only [Function.comp_apply] at hx hy
  have hxn := perQuestionExecution_number (Option.mem_def.mp hx)
  have hyn := perQuestionExecution_number (Option.mem_def.mp hy)
  omega

theorem qleb_trans : ∀ (a b c : Question),
    qleb a b → qleb b c → qleb a c := by
  intro a b c hab hbc
  simp only [qleb, decide_eq_true_eq] at *
  omega

theorem qleb_total : ∀ (a b : Question), qleb a b || qleb b a := by
  intro a b
  simp only [qleb]
  by_cases h : a.question_number ≤ b.question_number
  · simp [h]
  · simp [h]; omega

theorem sorted_strict_unique :
    ∀ (l₁ l₂ : List Question), List.Perm l₁ l₂ →
      l₁.Pairwise (fun a b => a.question_number < b.question_number) →
      l₂.Pairwise (fun a b => a.question_number < b.question_number) →
      l₁ = l₂ := by
  intro l₁
  induction l₁ with
  | nil =>
    intro l₂ hp _ _
    exact (hp.nil_eq).symm ▸ rfl
  | cons a t ih =>
    intro l₂ hp h1 h2
    match l₂ with
    | [] => exact absurd hp.symm.nil_eq (by simp)
    | b :: t₂ =>
      by_cases hab : a = b
      · subst hab
        have hpt := hp.cons_inv
        rw [ih t₂ hpt (List.Pairwise.of_cons h1) (List.Pairwise.of_cons h2)]
      · exfalso
        have ha2 : a ∈ b :: t₂ := hp.mem_iff.mp (List.mem_cons_self a t)
        have hb1 : b ∈ a :: t := hp.symm.mem_iff.mp (List.mem_cons_self b t₂)
        have hat2 : a ∈ t₂ := by
          rcases List.mem_cons.mp ha2 with h | h
          · exact absurd h hab
          · exact h
        have hbt1 : b ∈ t := by
          rcases List.mem_cons.mp hb1 with h | h
          · exact absurd h.symm hab
          · exact h
        have hba : b.question_number < a.question_number :=
          (List.pairwise_cons.mp h2).1 a hat2
        have hab' : a.question_number < b.question_number :=
          (List.pairwise_cons.mp h1).1 b hbt1
        omega

theorem mergeSort_perm_strict_eq (l' s : List Question)
    (hp : List.Perm l' s)
    (hs : s.Pairwise (fun a b => a.question_number < b.question_number)) :
    l'.mergeSort qleb = s := by
  have h1 : List.Perm (l'.mergeSort qleb) s :=
    (List.mergeSort_perm l' qleb).trans hp
  have h2 : (l'.mergeSort qleb).Pairwise (fun a b => qleb a b = true) :=
    List.sorted_mergeSort qleb_trans qleb_total l'
  have hkeys : ((l'.mergeSort qleb).map (fun q => q.question_number)).Nodup := by
    have hsk : (s.map (fun q => q.question_number)).Nodup := by
      apply List.Pairwise.imp (fun {x y} (h : x < y) => Nat.ne_of_lt h)
      exact List.pairwise_map.mpr hs
    exact ((h1.map (fun q => q.question_number)).nodup_iff).mpr hsk
  have hne : (l'.mergeSort qleb).Pairwise
      (fun a b => a.question_number ≠ b.question_number) :=
    List.pairwise_map.mp hkeys
  have hstrict : (l'.mergeSort qleb).Pairwise
      (fun a b => a.question_number < b.question_number) := by
    apply List.Pairwise.imp ?_ (h2.and hne)
    intro x y ⟨hle, hnr⟩
    simp only [qleb, decide_eq_true_eq] at hle
    omega
  exact sorted_strict_unique _ _ h1 hstrict hs

theorem collate_sorted (plans : List String) (subject : String)
    (start : Nat) (o : Nat → PlanOutcome) :
    (collateQuestions plans subject start o).questions =
      (planResults plans subject start o).filterMap id := by
  rw [collate_questions_eq]
  exact mergeSort_perm_strict_eq _ _ (List.Perm.refl _)
    (planResults_pairwise plans subject start o)

theorem mem_collate_iff (plans : List String) (subject : String)
    (start : Nat) (o : Nat → PlanOutcome) (q : Question) :
    q ∈ (collateQuestions plans subject start o).questions ↔
      ∃ i p, plans[i]? = some p ∧
        perQuestionExecution start i p subject (o i) = some q := by
  rw [collate_sorted]
  unfold planResults
  rw [List.filterMap_map]
  constructor
  · intro h
    obtain ⟨a, ha, hfa⟩ := List.mem_filterMap.mp h
    obtain ⟨i, p⟩ := a
    refine ⟨i, p, ?_, ?_⟩
    · simpa using List.mem_enum_iff_getElem?.mp ha
    · simpa using hfa
  · rintro ⟨i, p, hp, hq⟩
    refine List.mem_filterMap.mpr ⟨(i, p), ?_, ?_⟩
    · exact List.mem_enum_iff_getElem?.mpr (by simpa using hp)
    · simpa using hq

theorem filterMap_id_length {β : Type} (l : List (Option β)) :
    (l.filterMap id).length + l.countP (fun r => r.isNone) = l.length := by
  induction l with
  | nil => rfl
  | cons a t ih =>
    cases a <;> simp [List.filterMap_cons, List.countP_cons] <;> omega

theorem planResults_length (plans : List String) (subject : String)
    (start : Nat) (o : Nat → PlanOutcome) :
    (planResults plans subject start o).length = plans.length := by
  unfold planResults
  simp

/-- Claim C2: for a batch of N plans of which K fail, the collated output
has exactly N minus K questions; it is strictly increasing in the
sequence numbers assigned at dispatch (start plus original plan index);
every successful plan's question appears, carrying its dispatch number;
and the output is the same for every completion-order permutation of the
successful results, because the final sort is by the pre-assigned
number. -/
theorem claim_C2_collation_order_and_count
    (plans : List String) (subject : String) (start : Nat)
    (o : Nat → PlanOutcome) :
    ((collateQuestions plans subject start o).questions.length =
       plans.length -
         (planResults plans subject start o).countP (fun r => r.isNone)) ∧
    ((collateQuestions plans subject start o).questions.Pairwise
       (fun a b => a.question_number < b.question_number)) ∧
    (∀ i p q, plans[i]? = some p →
       perQuestionExecution start i p subject (o i) = some q →
       q ∈ (collateQuestions plans subject start o).questions ∧
       q.question_number = start + i) ∧
    (∀ l', List.Perm l' ((planResults plans subject start o).filterMap id) →
       l'.mergeSort qleb = (collateQuestions plans subject start o).questions) := by
  refine ⟨?_, ?_, ?_, ?_⟩
  · rw [collate_sorted]
    have h1 := filterMap_id_length (planResults plans subject start o)
    have h2 := planResults_length plans subject start o
    omega
  · rw [collate_sorted]
    exact planResults_pairwise plans subject start o
  · intro i p q hp hq
    exact ⟨(mem_collate_iff plans subject start o q).mpr ⟨i, p, hp, hq⟩,
      perQuestionExecution_number hq⟩
  · intro l' hperm
    rw [collate_sorted]
    exact mergeSort_perm_strict_eq l' _ hperm
      (planResults_pairwise plans subject start o)

/-- Witness for claim C2: three plans with the middle one failing collate
into two questions, the successful plan's question is present with
number start plus index, and sorting a permuted completion order yields
the same output list. -/
theorem claim_C2_witness :
    (collateQuestions plansW "General" 10 oW).questions.length = 2 ∧
    qW2 ∈ (collateQuestions plansW "General" 10 oW).questions ∧
    qW2.question_number = 10 + 2 ∧
    List.mergeSort [qW2, qW0] qleb =
      (collateQuestions plansW "General" 10 oW).questions := by
  have h := claim_C2_collation_order_and_count plansW "General" 10 oW
  have hm := h.2.2.1 2 "p2" qW2 (by decide) (by decide)
  refine ⟨?_, hm.1, hm.2, ?_⟩
  · have hc : (planResults plansW "General" 10 oW).countP (fun r => r.isNone)
        = 1 := by decide
    have hl : plansW.length = 3 := by decide
    rw [h.1, hc, hl]
  · exact h.2.2.2 [qW2, qW0] (by decide)

/-- Claim C3: a per-plan failure is caught inside that plan's task and
becomes a dropped none result; the other plans' results are untouched
and still reach the batch output; and the only batch outcome that is
empty by construction is the planner returning no plans, which yields
the empty paper. -/
theorem claim_C3_failure_isolation
    (plans : List String) (subject : String) (start : Nat)
    (o o' : Nat → PlanOutcome) (j : Nat)
    (hcrash : (o' j).crash = true)
    (hagree : ∀ i, i ≠ j → o' i = o i) :
    (∀ plan, perQuestionExecution start j plan subject (o' j) = none) ∧
    (∀ i p q, i ≠ j → plans[i]? = some p →
       perQuestionExecution start i p subject (o i) = some q →
       q ∈ (collateQuestions plans subject start o').questions) ∧
    (generateQuestions none subject start o' = ⟨[]⟩ ∧
     generateQuestions (some []) subject start o' = ⟨[]⟩) := by
  refine ⟨?_, ?_, rfl, rfl⟩
  · intro plan
    unfold perQuestionExecution perQuestionBody
    simp [hcrash]
  · intro i p q hij hp hq
    refine (mem_collate_iff plans subject start o' q).mpr ⟨i, p, hp, ?_⟩
    rw [hagree i hij]
    exact hq

/-- Witness for claim C3: with the middle plan crashing, its result is
dropped, the sibling plans' questions still appear, and an absent or
empty plan list yields the empty paper. -/
theorem claim_C3_witness :
    perQuestionExecution 10 1 "p1" "General" (oWc 1) = none ∧
    qW2 ∈ (collateQuestions plansW "General" 10 oWc).questions ∧
    generateQuestions none "General" 10 oWc = ⟨[]⟩ := by
  have h := claim_C3_failure_isolation plansW "General" 10 oW oWc 1
    (by decide)
    (fun i hi => by unfold oWc; rw [if_neg hi])
  exact ⟨h.1 "p1", h.2.1 2 "p2" qW2 (by decide) (by decide) (by decide),
    h.2.2.1⟩

/-- Claim C6: a question is emitted for a plan only when the task did not
crash, the generator produced a draft, and the translation is present;
when the translation is absent (the translator raised or returned
nothing), the plan's question is dropped and no question carrying that
plan's dispatch number reaches the batch output. -/
theorem claim_C6_translation_gating
    (plans : List String) (subject : String) (start : Nat)
    (o : Nat → PlanOutcome) (j : Nat) (plan : String) :
    (∀ q, perQuestionExecution start j plan subject (o j) = some q →
       (o j).crash = false ∧ (∃ que, (o j).gen = some que) ∧
       (∃ qh, translateQuestion (o j).trans = some qh)) ∧
    (translateQuestion (o j).trans = none →
       perQuestionExecution start j plan subject (o j) = none ∧
       ∀ q, q ∈ (collateQuestions plans subject start o).questions →
         q.question_number ≠ start + j) := by
  constructor
  · intro q hq
    unfold perQuestionExecution perQuestionBody at hq
    by_cases hc : (o j).crash = true
    · simp [hc] at hq
    · refine ⟨by simpa using hc, ?_, ?_⟩
      all_goals
        simp only [hc, Bool.false_eq_true, if_false] at hq
      · match hg : (o j).gen with
        | none => rw [hg] at hq; simp at hq
        | some que => exact ⟨que, rfl⟩
      · match hg : (o j).gen with
        | none => rw [hg] at hq; simp at hq
        | some que =>
          rw [hg] at hq
          match ht : translateQuestion (o j).trans with
          | none => rw [ht] at hq; simp at hq
          | some qh => exact ⟨qh, rfl⟩
  · intro ht
    have hnone : ∀ pl, perQuestionExecution start j pl subject (o j) = none := by
      intro pl
      unfold perQuestionExecution perQuestionBody
      by_cases hc : (o j).crash = true
      · simp [hc]
      · simp only [hc, Bool.false_eq_true, if_false]
        match hg : (o j).gen with
        | none => rfl
        | some que => rw [ht]
    refine ⟨hnone plan, ?_⟩
    intro q hq hnum
    obtain ⟨i, p, hp, hqe⟩ := (mem_collate_iff plans subject start o q).mp hq
    have hni := perQuestionExecution_number hqe
    have hij : i = j := by omega
    subst hij
    rw [hnone p] at hqe
    exact absurd hqe (by simp)

/-- Witness for claim C6: with the middle plan's translation raising, the
translator result is absent, that plan's task yields none, and the batch
output is exactly the two sibling questions. -/
theorem claim_C6_witness :
    translateQuestion (oWt 1).trans = none ∧
    perQuestionExecution 10 1 "p1" "General" (oWt 1) = none ∧
    (collateQuestions plansW "General" 10 oWt).questions = [qW0, qW2] := by
  refine ⟨rfl, ?_, by rw [collate_sorted]; decide⟩
  exact ((claim_C6_translation_gating plansW "General" 10 oWt 1 "p1").2 rfl).1

/-! ### Rounding lemmas -/

theorem ratFloor_eq (q : ℚ) : ratFloor q = ⌊q⌋ := Rat.floor_def.symm

theorem oneHalfQ_eq : oneHalfQ = 1 / 2 := by
  unfold oneHalfQ
  rw [Rat.mkRat_eq_div]
  norm_num

theorem hundredthQ_eq : hundredthQ = 1 / 100 := by
  unfold hundredthQ
  rw [Rat.mkRat_eq_div]
  norm_num

theorem tenthQ_eq : tenthQ = 1 / 10 := by
  unfold tenthQ
  rw [Rat.mkRat_eq_div]
  norm_num

theorem pyRound_cases (q : ℚ) : pyRound q = ⌊q⌋ ∨ pyRound q = ⌊q⌋ + 1 := by
  unfold pyRound
  rw [ratFloor_eq]
  split
  · left; rfl
  · split
    · right; rfl
    · split
      · left; rfl
      · right; rfl

theorem pyRound_floor_le (q : ℚ) : ⌊q⌋ ≤ pyRound q := by
  rcases pyRound_cases q with h | h <;> omega

theorem pyRound_nonneg {q : ℚ} (h : 0 ≤ q) : 0 ≤ pyRound q := by
  have hf : (0 : ℤ) ≤ ⌊q⌋ := Int.floor_nonneg.mpr h
  have := pyRound_floor_le q
  omega

theorem pyRound_err (q : ℚ) : |q - pyRound q| ≤ 1 / 2 := by
  have hfl : (⌊q⌋ : ℚ) ≤ q := Int.floor_le q
  have hfu : q < ⌊q⌋ + 1 := Int.lt_floor_add_one q
  unfold pyRound
  rw [ratFloor_eq, oneHalfQ_eq]
  split
  · rename_i h
    rw [abs_le]
    constructor <;> push_cast at h ⊢ <;> linarith
  · split
    · rename_i h1 h2
      rw [abs_le]
      push_cast at h1 h2 ⊢
      constructor <;> linarith
    · split
      · rename_i h1 h2 _
        rw [abs_le]
        push_cast at h1 h2 ⊢
        constructor <;> linarith
      · rename_i h1 h2 _
        rw [abs_le]
        push_cast at h1 h2 ⊢
        constructor <;> linarith

theorem pyRound_eq_floor_iff_nonneg_diff (q : ℚ) :
    pyRound q = ⌊q⌋ ↔ 0 ≤ q - pyRound q := by
  have hfl : (⌊q⌋ : ℚ) ≤ q := Int.floor_le q
  have hfu : q < ⌊q⌋ + 1 := Int.lt_floor_add_one q
  constructor
  · intro h
    rw [h]
    linarith
  · intro h
    rcases pyRound_cases q with hc | hc
    · exact hc
    · exfalso
      rw [hc] at h
      push_cast at h
      linarith

/-! ### Allocation pass lemmas -/

theorem allocFirstPass_sum (total : Nat) :
    ∀ (items : List (String × ℚ)) (rem : Nat),
      sumCounts (allocFirstPass total items rem).1 +
        (allocFirstPass total items rem).2 = rem := by
  intro items
  induction items with
  | nil => intro rem; simp [allocFirstPass, sumCounts]
  | cons e t ih =>
    intro rem
    obtain ⟨o, p⟩ := e
    simp only [allocFirstPass]
    have hc : min (pyRound (exactShare total p)).toNat rem ≤ rem :=
      Nat.min_le_right _ _
    have := ih (rem - min (pyRound (exactShare total p)).toNat rem)
    simp only [sumCounts, List.map_cons, List.sum_cons] at *
    omega

theorem allocFirstPass_zero (total : Nat) :
    ∀ (items : List (String × ℚ)), (allocFirstPass total items 0).2 = 0 := by
  intro items
  induction items with
  | nil => rfl
  | cons e t ih =>
    obtain ⟨o, p⟩ := e
    simp only [allocFirstPass, Nat.min_zero, Nat.sub_zero]
    exact ih

theorem allocSecondPass_zero (total : Nat) :
    ∀ (alloc : List (String × ℚ × Nat)) (rem : Nat),
      rem ≤ eligCount total alloc →
      (allocSecondPass total alloc rem).2 = 0 := by
  intro alloc
  induction alloc with
  | nil =>
    intro rem h
    simp only [eligCount, List.countP_nil, Nat.le_zero] at h
    subst h
    rfl
  | cons e t ih =>
    intro rem h
    obtain ⟨o, p, c⟩ := e
    simp only [allocSecondPass]
    by_cases hr : rem = 0
    · simp [hr]
    · simp only [if_neg hr]
      simp only [eligCount, List.countP_cons] at h
      by_cases he : c ≤ (ratFloor (exactShare total p)).toNat
      · have hcond : c < (ratFloor (exactShare total p)).toNat + 1 := by omega
        simp only [if_pos hcond]
        have := ih (rem - 1) (by
          simp only [eligCount]
          simp only [decide_eq_true_eq] at h
          simp [he] at h
          omega)
        simpa using this
      · have hcond : ¬(c < (ratFloor (exactShare total p)).toNat + 1) := by omega
        simp only [if_neg hcond]
        have := ih rem (by
          simp only [eligCount]
          simp only [decide_eq_true_eq] at h
          simp [he] at h
          omega)
        simpa using this

theorem allocSecondPass_sum (total : Nat) :
    ∀ (alloc : List (String × ℚ × Nat)) (rem : Nat),
      sumCounts (allocSecondPass total alloc rem).1 +
        (allocSecondPass total alloc rem).2 = sumCounts alloc + rem := by
  intro alloc
  induction alloc with
  | nil => intro rem; simp [allocSecondPass, sumCounts]
  | cons e t ih =>
    intro rem
    obtain ⟨o, p, c⟩ := e
    simp only [allocSecondPass]
    by_cases hr : rem = 0
    · simp [hr]
    · simp only [if_neg hr]
      by_cases hcond : c < (ratFloor (exactShare total p)).toNat + 1
      · simp only [if_pos hcond]
        have := ih (rem - 1)
        simp only [sumCounts, List.map_cons, List.sum_cons] at *
        omega
      · simp only [if_neg hcond]
        have := ih rem
        simp only [sumCounts, List.map_cons, List.sum_cons] at *
        omega

theorem max_zero_add_le (X d t : ℚ) (hdt : d ≤ t) (ht : 0 ≤ t) :
    max 0 (X + d) ≤ max 0 X + t := by
  apply max_le
  · have h := le_max_left (0 : ℚ) X
    linarith
  · have h := le_max_right (0 : ℚ) X
    linarith

/-- The exact share exceeds its rounded-down-to-Nat value by at most one
half. -/
theorem exact_sub_toNat_le (e : ℚ) :
    e - ((pyRound e).toNat : ℚ) ≤ 1 / 2 := by
  have herr := pyRound_err e
  rw [abs_le] at herr
  rcases le_or_lt 0 (pyRound e) with h | h
  · have hq : ((pyRound e).toNat : ℚ) = ((pyRound e : ℤ) : ℚ) := by
      exact_mod_cast Int.toNat_of_nonneg h
    rw [hq]
    linarith [herr.2]
  · have h0 : (pyRound e).toNat = 0 := Int.toNat_of_nonpos (le_of_lt h)
    rw [h0]
    have hneg : (pyRound e : ℚ) ≤ -1 := by
      have : pyRound e ≤ -1 := by omega
      exact_mod_cast this
    push_cast
    linarith [herr.2]

/-- When the exact share still exceeds the allocated rounded count, the
item is below its floored share, hence eligible for a second-pass
top-up. -/
theorem elig_of_pos_diff (e : ℚ)
    (h : 0 < e - ((pyRound e).toNat : ℚ)) :
    (pyRound e).toNat ≤ (ratFloor e).toNat := by
  rcases le_or_lt 0 (pyRound e) with hnn | hneg
  · have hq : ((pyRound e).toNat : ℚ) = ((pyRound e : ℤ) : ℚ) := by
      exact_mod_cast Int.toNat_of_nonneg hnn
    rw [hq] at h
    have hfl : pyRound e = ⌊e⌋ :=
      (pyRound_eq_floor_iff_nonneg_diff e).mpr (le_of_lt h)
    rw [ratFloor_eq, hfl]
  · exfalso
    have h0 : (pyRound e).toNat = 0 := Int.toNat_of_nonpos (le_of_lt hneg)
    rw [h0] at h
    push_cast at h
    have hpos : (0 : ℚ) < e := by linarith
    have hf : (0 : ℤ) ≤ ⌊e⌋ := Int.floor_nonneg.mpr (le_of_lt hpos)
    have := pyRound_floor_le e
    omega

/-- The key first-pass bound: the remainder left by the rounding pass is
at most the exact-share deficit plus half a unit per item that is still
below its floored share (those are the items the second pass may top
up). -/
theorem allocFirstPass_bound (total : Nat) :
    ∀ (items : List (String × ℚ)) (rem : Nat),
      (((allocFirstPass total items rem).2 : ℚ)) ≤
        max 0 ((rem : ℚ) - (items.map (fun e => exactShare total e.2)).sum)
          + (1 / 2) * (eligCount total (allocFirstPass total items rem).1 : ℚ) := by
  intro items
  induction items with
  | nil =>
    intro rem
    simp only [allocFirstPass, List.map_nil, List.sum_nil, eligCount,
      List.countP_nil, Nat.cast_zero, mul_zero, add_zero, sub_zero]
    exact le_max_right _ _
  | cons ep t ih =>
    intro rem
    obtain ⟨o, p⟩ := ep
    by_cases hcap : rem ≤ (pyRound (exactShare total p)).toNat
    · have hc : min (pyRound (exactShare total p)).toNat rem = rem :=
        Nat.min_eq_right hcap
      have hz := allocFirstPass_zero total t
      simp only [allocFirstPass, hc, Nat.sub_self]
      cases hfp : allocFirstPass total t 0 with
      | mk rest rem2 =>
        rw [hfp] at hz
        simp only at hz
        subst hz
        simp only [Nat.cast_zero]
        have h1 : (0 : ℚ) ≤ max 0 ((rem : ℚ) -
            ((o, p) :: t |>.map (fun e => exactShare total e.2)).sum) :=
          le_max_left _ _
        have h2 : (0 : ℚ) ≤ (1 / 2) *
            (eligCount total ((o, p, rem) :: rest) : ℚ) := by positivity
        linarith
    · push_neg at hcap
      have hrle : (pyRound (exactShare total p)).toNat ≤ rem :=
        Nat.le_of_lt hcap
      have hc : min (pyRound (exactShare total p)).toNat rem =
          (pyRound (exactShare total p)).toNat := Nat.min_eq_left hrle
      simp only [allocFirstPass, hc]
      cases hfp : allocFirstPass total t
          (rem - (pyRound (exactShare total p)).toNat) with
      | mk rest rem2 =>
        have hih := ih (rem - (pyRound (exactShare total p)).toNat)
        rw [hfp] at hih
        simp only at hih ⊢
        rw [Nat.cast_sub hrle] at hih
        rw [List.map_cons, List.sum_cons]
        have hcount : (eligCount total
            ((o, p, (pyRound (exactShare total p)).toNat) :: rest) : ℚ) =
            (eligCount total rest : ℚ) +
              (if (pyRound (exactShare total p)).toNat ≤
                  (ratFloor (exactShare total p)).toNat
                then (1 : ℚ) else 0) := by
          simp only [eligCount, List.countP_cons, decide_eq_true_eq]
          split <;> push_cast <;> ring
        rw [hcount]
        by_cases hel : (pyRound (exactShare total p)).toNat ≤
            (ratFloor (exactShare total p)).toNat
        · rw [if_pos hel]
          have hXrw : (rem : ℚ) -
              ((pyRound (exactShare total p)).toNat : ℚ) -
              (t.map (fun e => exactShare total e.2)).sum =
              ((rem : ℚ) - (exactShare total p +
                (t.map (fun e => exactShare total e.2)).sum)) +
              (exactShare total p -
                ((pyRound (exactShare total p)).toNat : ℚ)) := by
            ring
          rw [hXrw] at hih
          have hkey := max_zero_add_le
            ((rem : ℚ) - (exactShare total p +
              (t.map (fun e => exactShare total e.2)).sum))
            (exactShare total p -
              ((pyRound (exactShare total p)).toNat : ℚ))
            (1 / 2) (exact_sub_toNat_le (exactShare total p)) (by norm_num)
          linarith
        · rw [if_neg hel]
          have hd : exactShare total p -
              ((pyRound (exactShare total p)).toNat : ℚ) ≤ 0 := by
            by_contra hpos
            push_neg at hpos
            exact hel (elig_of_pos_diff (exactShare total p) hpos)
          have hXrw : (rem : ℚ) -
              ((pyRound (exactShare total p)).toNat : ℚ) -
              (t.map (fun e => exactShare total e.2)).sum =
              ((rem : ℚ) - (exactShare total p +
                (t.map (fun e => exactShare total e.2)).sum)) +
              (exactShare total p -
                ((pyRound (exactShare total p)).toNat : ℚ)) := by
            ring
          rw [hXrw] at hih
          have hkey := max_zero_add_le
            ((rem : ℚ) - (exactShare total p +
              (t.map (fun e => exactShare total e.2)).sum))
            (exactShare total p -
              ((pyRound (exactShare total p)).toNat : ℚ))
            0 hd le_rfl
          linarith

theorem insertDesc_perm (x : String × ℚ) :
    ∀ (l : List (String × ℚ)), List.Perm (insertDesc x l) (x :: l) := by
  intro l
  induction l with
  | nil => simp [insertDesc]
  | cons y t ih =>
    simp only [insertDesc]
    split
    · exact List.Perm.refl _
    · exact (ih.cons y).trans (List.Perm.swap x y t)

theorem sortDesc_perm :
    ∀ (l : List (String × ℚ)), List.Perm (sortDesc l) l := by
  intro l
  induction l with
  | nil => simp [sortDesc]
  | cons x t ih =>
    exact (insertDesc_perm x (sortDesc t)).trans (ih.cons x)

theorem sum_exactShare (total : Nat) :
    ∀ (l : List (String × ℚ)),
      (l.map (fun e => exactShare total e.2)).sum =
        (total : ℚ) * (l.map Prod.snd).sum * hundredthQ := by
  intro l
  induction l with
  | nil => simp
  | cons e t ih =>
    rw [List.map_cons, List.sum_cons, ih, List.map_cons, List.sum_cons]
    simp only [exactShare]
    ring

theorem filter_pos_sum :
    ∀ (l : List (String × ℚ)), (∀ e ∈ l, 0 ≤ e.2) →
      ((l.filter (fun p => decide (0 < p.2))).map Prod.snd).sum =
        (l.map Prod.snd).sum := by
  intro l
  induction l with
  | nil => intro _; rfl
  | cons e t ih =>
    intro hnn
    have hmem := hnn e (List.mem_cons_self e t)
    have hrest : ∀ x ∈ t, 0 ≤ x.2 :=
      fun x hx => hnn x (List.mem_cons_of_mem e hx)
    by_cases hp : 0 < e.2
    · rw [List.filter_cons_of_pos (by simpa using hp)]
      rw [List.map_cons, List.sum_cons, ih hrest, List.map_cons,
        List.sum_cons]
    · have hzero : e.2 = 0 := le_antisymm (not_lt.mp hp) hmem
      rw [List.filter_cons_of_neg (by simpa using hp)]
      rw [ih hrest, List.map_cons, List.sum_cons, hzero]
      ring

theorem flatMap_replicate_length :
    ∀ (alloc : List (String × ℚ × Nat)),
      (alloc.flatMap (fun x => List.replicate x.2.2 x.1)).length =
        sumCounts alloc := by
  intro alloc
  induction alloc with
  | nil => rfl
  | cons e t ih =>
    simp only [List.flatMap_cons, List.length_append, List.length_replicate,
      ih, sumCounts, List.map_cons, List.sum_cons]

/-- Claim C4 counterexample: the claim quantifies over every non-empty
weight table, but for the one-entry table with weight ten and total ten
the allocation sums to two, not ten — the first pass rounds the ten
percent share of ten to one, and the single second-pass sweep can add at
most one unit per category, leaving eight units never allocated. -/
theorem claim_C4_counterexample :
    ([(("A" : String), (10 : ℚ))] ≠ []) ∧
    sumCounts (getDistributionCounts 10 [("A", 10)] none) = 2 ∧
    ¬(sumCounts (getDistributionCounts 10 [("A", 10)] none) = 10) := by
  refine ⟨by simp, ?_, ?_⟩
  · with_unfolding_all decide
  · with_unfolding_all decide

/-- Claim C4 (amended): for every weight table whose subject-adjusted
entries are nonnegative, have distinct names (they come from a dict),
and sum to exactly one hundred, and for every total, the per-category
counts produced by the weighted allocation sum to exactly the total, and
the emitted option list has exactly that length. -/
theorem claim_C4_weighted_allocation_sum
    (total : Nat) (dist : List (String × ℚ)) (subject : Option String)
    (hnn : ∀ e ∈ adjustDist dist subject, 0 ≤ e.2)
    (hnd : ((adjustDist dist subject).map Prod.fst).Nodup)
    (hsum : ((adjustDist dist subject).map Prod.snd).sum = 100) :
    sumCounts (getDistributionCounts total dist subject) = total ∧
    (getDistribution total dist subject).length = total := by
  suffices h : sumCounts (getDistributionCounts total dist subject) = total by
    refine ⟨h, ?_⟩
    unfold getDistribution
    rw [flatMap_replicate_length, h]
  unfold getDistributionCounts
  simp only
  set items := sortDesc ((adjustDist dist subject).filter
    (fun p => decide (0 < p.2))) with hitems
  have hsum_items : (items.map Prod.snd).sum = 100 := by
    have h1 : ((items.map Prod.snd).sum) =
        (((adjustDist dist subject).filter
          (fun p => decide (0 < p.2))).map Prod.snd).sum :=
      ((sortDesc_perm _).map Prod.snd).sum_eq
    rw [h1, filter_pos_sum _ hnn, hsum]
  have hShares : (items.map (fun e => exactShare total e.2)).sum = total := by
    rw [sum_exactShare, hsum_items, hundredthQ_eq]
    ring
  have hFPsum := allocFirstPass_sum total items total
  by_cases hrem : 0 < (allocFirstPass total items total).2
  · rw [if_pos hrem]
    have hbound := allocFirstPass_bound total items total
    rw [hShares] at hbound
    have hmax0 : max (0 : ℚ) ((total : ℚ) - (total : ℚ)) = 0 := by simp
    rw [hmax0, zero_add] at hbound
    have hE : (allocFirstPass total items total).2 ≤
        eligCount total (allocFirstPass total items total).1 := by
      have hE0 : (0 : ℚ) ≤
          (eligCount total (allocFirstPass total items total).1 : ℚ) :=
        Nat.cast_nonneg _
      have : ((allocFirstPass total items total).2 : ℚ) ≤
          (eligCount total (allocFirstPass total items total).1 : ℚ) := by
        linarith
      exact_mod_cast this
    have hSP0 := allocSecondPass_zero total
      (allocFirstPass total items total).1
      (allocFirstPass total items total).2 hE
    have hSPsum := allocSecondPass_sum total
      (allocFirstPass total items total).1
      (allocFirstPass total items total).2
    omega
  · rw [if_neg hrem]
    omega

/-- Witness for the amended claim C4: the difficulty table (weights
fifty, thirty-five, fifteen) with total ten allocates counts summing to
ten. -/
theorem claim_C4_witness :
    sumCounts (getDistributionCounts 10 UPSC_DIFFICULTY_DIST none) = 10 ∧
    (getDistribution 10 UPSC_DIFFICULTY_DIST none).length = 10 :=
  claim_C4_weighted_allocation_sum 10 UPSC_DIFFICULTY_DIST none
    (by with_unfolding_all decide)
    (by with_unfolding_all decide)
    (by with_unfolding_all decide)

/-! ### Subject-table derivation lemmas (claim C9) -/

theorem roundTo1_err (q : ℚ) : |roundTo1 q - q| ≤ 1 / 20 := by
  have herr := pyRound_err (q * 10)
  rw [abs_le] at herr
  unfold roundTo1
  rw [tenthQ_eq, abs_le]
  constructor <;> [linarith [herr.2]; linarith [herr.1]]

theorem setKey_eq_of_key {l : List (String × ℚ)} {k : String} {v : ℚ}
    {x : String × ℚ} (hx : x ∈ setKey l k v) (hk : x.1 = k) : x.2 = v := by
  unfold setKey at hx
  split at hx
  · obtain ⟨p, hp, hpx⟩ := List.mem_map.mp hx
    by_cases hpk : p.1 = k
    · rw [if_pos hpk] at hpx
      rw [← hpx]
    · rw [if_neg hpk] at hpx
      rw [← hpx] at hk
      exact absurd hk hpk
  · rename_i hany
    rcases List.mem_append.mp hx with h | h
    · exfalso
      apply hany
      rw [List.any_eq_true]
      exact ⟨x, h, by simpa using hk⟩
    · have : x = (k, v) := by simpa using h
      rw [this]

theorem setKey_mem_key (l : List (String × ℚ)) (k : String) (v : ℚ) :
    (k, v) ∈ setKey l k v ∨
      ∃ p ∈ l, p.1 = k ∧ (p.1, v) ∈ setKey l k v := by
  unfold setKey
  split
  · rename_i hany
    rw [List.any_eq_true] at hany
    obtain ⟨p, hp, hpk⟩ := hany
    simp only [decide_eq_true_eq] at hpk
    right
    refine ⟨p, hp, hpk, ?_⟩
    have heq : (fun q => if q.1 = k then (q.1, v) else q) p = (p.1, v) := by
      simp [hpk]
    exact heq ▸ List.mem_map_of_mem _ hp
  · left
    exact List.mem_append.mpr (Or.inr (List.mem_singleton.mpr rfl))

theorem setKey_mem_of_ne {l : List (String × ℚ)} {k : String} {v : ℚ}
    {x : String × ℚ} (hx : x ∈ l) (hk : x.1 ≠ k) : x ∈ setKey l k v := by
  unfold setKey
  split
  · have heq : (fun q => if q.1 = k then (q.1, v) else q) x = x := by
      simp [hk]
    exact heq ▸ List.mem_map_of_mem _ hx
  · exact List.mem_append.mpr (Or.inl hx)

theorem filter_ne_update (k : String) (v : ℚ) :
    ∀ (l : List (String × ℚ)),
      (l.map (fun p => if p.1 = k then (p.1, v) else p)).filter
          (fun e => decide (e.1 ≠ k)) =
        l.filter (fun e => decide (e.1 ≠ k)) := by
  intro l
  induction l with
  | nil => rfl
  | cons p t ih =>
    by_cases hpk : p.1 = k
    · simp only [List.map_cons, if_pos hpk]
      rw [List.filter_cons_of_neg (by simpa using hpk),
        List.filter_cons_of_neg (by simp [hpk])]
      exact ih
    · simp only [List.map_cons, if_neg hpk]
      rw [List.filter_cons_of_pos (by simpa using hpk),
        List.filter_cons_of_pos (by simpa using hpk)]
      rw [ih]

theorem filter_ne_setKey (l : List (String × ℚ)) (k : String) (v : ℚ) :
    (setKey l k v).filter (fun e => decide (e.1 ≠ k)) =
      l.filter (fun e => decide (e.1 ≠ k)) := by
  unfold setKey
  split
  · exact filter_ne_update k v l
  · rw [List.filter_append]
    rw [List.filter_cons_of_neg (by simp), List.filter_nil, List.append_nil]

theorem filter_key_map (f : String × ℚ → String × ℚ)
    (hf : ∀ p, (f p).1 = p.1) (pred : String → Bool) :
    ∀ l : List (String × ℚ),
      (l.map f).filter (fun e => pred e.1) =
        (l.filter (fun e => pred e.1)).map f := by
  intro l
  induction l with
  | nil => rfl
  | cons p t ih =>
    simp only [List.map_cons, List.filter_cons, hf]
    by_cases hp : pred p.1 = true
    · simp only [hp, if_true, List.map_cons, ih]
    · simp only [hp, Bool.false_eq_true, if_false, ih]

theorem histMap_fst (p : String × ℚ) : (histMap p).1 = p.1 := by
  unfold histMap
  split <;> rfl

theorem geoMap_fst (p : String × ℚ) : (geoMap p).1 = p.1 := by
  unfold geoMap
  split <;> rfl

theorem hist_sum_bound :
    ∀ (l : List (String × ℚ)), (∀ p ∈ l, p.1 ≠ chronKey) →
      |((l.map histMap).map Prod.snd).sum -
          mkRat 8 10 * (l.map Prod.snd).sum| ≤ (l.length : ℚ) * (1 / 20) := by
  intro l
  induction l with
  | nil => simp
  | cons p t ih =>
    intro h
    have hp := h p (List.mem_cons_self p t)
    have ht := fun x hx => h x (List.mem_cons_of_mem p hx)
    have hmap : histMap p = (p.1, roundTo1 (p.2 * mkRat 8 10)) := by
      unfold histMap
      rw [if_neg hp]
    simp only [List.map_cons, List.sum_cons, hmap, List.length_cons]
    have hd := roundTo1_err (p.2 * mkRat 8 10)
    have hih := ih ht
    calc |roundTo1 (p.2 * mkRat 8 10) + ((t.map histMap).map Prod.snd).sum -
            mkRat 8 10 * (p.2 + (t.map Prod.snd).sum)|
        = |(roundTo1 (p.2 * mkRat 8 10) - p.2 * mkRat 8 10) +
            (((t.map histMap).map Prod.snd).sum -
              mkRat 8 10 * (t.map Prod.snd).sum)| := by ring_nf
      _ ≤ |roundTo1 (p.2 * mkRat 8 10) - p.2 * mkRat 8 10| +
            |((t.map histMap).map Prod.snd).sum -
              mkRat 8 10 * (t.map Prod.snd).sum| := abs_add _ _
      _ ≤ 1 / 20 + (t.length : ℚ) * (1 / 20) := by
            exact add_le_add hd hih
      _ = ((t.length : ℚ) + 1) * (1 / 20) := by ring
      _ = ((t.length + 1 : Nat) : ℚ) * (1 / 20) := by push_cast; ring

theorem geo_sum_bound :
    ∀ (l : List (String × ℚ)), (∀ p ∈ l, p.1 ≠ geoKey) →
      (∀ p ∈ l, p.1 = chronKey → p.2 = 0) →
      |((l.map geoMap).map Prod.snd).sum -
          mkRat 85 100 * (l.map Prod.snd).sum| ≤ (l.length : ℚ) * (1 / 20) := by
  intro l
  induction l with
  | nil => simp
  | cons p t ih =>
    intro hg h0
    have hpg := hg p (List.mem_cons_self p t)
    have htg := fun x hx => hg x (List.mem_cons_of_mem p hx)
    have ht0 := fun x hx hk => h0 x (List.mem_cons_of_mem p hx) hk
    have hih := ih htg ht0
    by_cases hpc : p.1 = chronKey
    · have hval := h0 p (List.mem_cons_self p t) hpc
      have hmap : geoMap p = p := by
        unfold geoMap
        rw [if_pos (by simp [hpc])]
      simp only [List.map_cons, List.sum_cons, hmap, List.length_cons, hval]
      calc |(0 : ℚ) + ((t.map geoMap).map Prod.snd).sum -
              mkRat 85 100 * (0 + (t.map Prod.snd).sum)|
          = |((t.map geoMap).map Prod.snd).sum -
              mkRat 85 100 * (t.map Prod.snd).sum| := by ring_nf
        _ ≤ (t.length : ℚ) * (1 / 20) := hih
        _ ≤ ((t.length + 1 : Nat) : ℚ) * (1 / 20) := by
              push_cast
              have : (0 : ℚ) ≤ 1 / 20 := by norm_num
              nlinarith [Nat.cast_nonneg (α := ℚ) t.length]
    · have hmap : geoMap p = (p.1, roundTo1 (p.2 * mkRat 85 100)) := by
        unfold geoMap
        rw [if_neg (by simp [hpg, hpc])]
      simp only [List.map_cons, List.sum_cons, hmap, List.length_cons]
      have hd := roundTo1_err (p.2 * mkRat 85 100)
      calc |roundTo1 (p.2 * mkRat 85 100) + ((t.map geoMap).map Prod.snd).sum -
              mkRat 85 100 * (p.2 + (t.map Prod.snd).sum)|
          = |(roundTo1 (p.2 * mkRat 85 100) - p.2 * mkRat 85 100) +
              (((t.map geoMap).map Prod.snd).sum -
                mkRat 85 100 * (t.map Prod.snd).sum)| := by ring_nf
        _ ≤ |roundTo1 (p.2 * mkRat 85 100) - p.2 * mkRat 85 100| +
              |((t.map geoMap).map Prod.snd).sum -
                mkRat 85 100 * (t.map Prod.snd).sum| := abs_add _ _
        _ ≤ 1 / 20 + (t.length : ℚ) * (1 / 20) := add_le_add hd hih
        _ = ((t.length + 1 : Nat) : ℚ) * (1 / 20) := by push_cast; ring

/-- Claim C9: for a subject with a structurally mandatory pattern, the
derived table gives the mandatory key exactly its reserved share (twenty
for History's chronological ordering, fifteen for Geography's
geographical sequencing); every other entry is the base entry scaled by
the complementary factor and rounded to one decimal; and when the base
non-mandatory weights sum to one hundred (with, for Geography, the
chronological entry zero as in the base table), the derived
non-mandatory entries sum to the complement of the reserved share within
one tenth per entry. -/
theorem claim_C9_subject_weight_derivation (dist : List (String × ℚ)) :
    ((∀ x ∈ adjustDist dist (some "History"), x.1 = chronKey → x.2 = 20) ∧
     (∀ p ∈ dist, p.1 ≠ chronKey →
        (p.1, roundTo1 (p.2 * mkRat 8 10)) ∈ adjustDist dist (some "History")) ∧
     (((dist.filter (fun e => decide (e.1 ≠ chronKey))).map Prod.snd).sum = 100 →
       |(((adjustDist dist (some "History")).filter
            (fun e => decide (e.1 ≠ chronKey))).map Prod.snd).sum - 80| ≤
         ((dist.filter (fun e => decide (e.1 ≠ chronKey))).length : ℚ) * (1 / 10))) ∧
    ((∀ x ∈ adjustDist dist (some "Geography"), x.1 = geoKey → x.2 = 15) ∧
     (∀ p ∈ dist, p.1 ≠ geoKey → p.1 ≠ chronKey →
        (p.1, roundTo1 (p.2 * mkRat 85 100)) ∈ adjustDist dist (some "Geography")) ∧
     ((∀ p ∈ dist, p.1 = chronKey → p.2 = 0) →
       ((dist.filter (fun e => decide (e.1 ≠ geoKey))).map Prod.snd).sum = 100 →
       |(((adjustDist dist (some "Geography")).filter
            (fun e => decide (e.1 ≠ geoKey))).map Prod.snd).sum - 85| ≤
         ((dist.filter (fun e => decide (e.1 ≠ geoKey))).length : ℚ) * (1 / 10))) := by
  have hH : adjustDist dist (some "History") =
      setKey (dist.map histMap) chronKey 20 := by
    unfold adjustDist
    rw [if_pos (show subjectIs (some "History") "history" = true from rfl)]
  have hG : adjustDist dist (some "Geography") =
      setKey (dist.map geoMap) geoKey 15 := by
    unfold adjustDist
    rw [if_neg (show ¬subjectIs (some "Geography") "history" = true from by
      simp [subjectIs, lowerStr])]
    rw [if_pos (show subjectIs (some "Geography") "geography" = true from rfl)]
  refine ⟨⟨?_, ?_, ?_⟩, ⟨?_, ?_, ?_⟩⟩
  · intro x hx hk
    rw [hH] at hx
    exact setKey_eq_of_key hx hk
  · intro p hp hk
    rw [hH]
    have hmem : histMap p ∈ dist.map histMap := List.mem_map_of_mem _ hp
    have heq : histMap p = (p.1, roundTo1 (p.2 * mkRat 8 10)) := by
      unfold histMap
      rw [if_neg hk]
    rw [heq] at hmem
    exact setKey_mem_of_ne hmem hk
  · intro hsum
    rw [hH, filter_ne_setKey,
      filter_key_map histMap histMap_fst (fun k => decide (k ≠ chronKey))]
    have hne : ∀ p ∈ dist.filter (fun e => decide (e.1 ≠ chronKey)),
        p.1 ≠ chronKey := by
      intro p hp
      have := List.of_mem_filter hp
      simpa using this
    have hb := hist_sum_bound (dist.filter (fun e => decide (e.1 ≠ chronKey))) hne
    rw [hsum] at hb
    have h80 : mkRat 8 10 * (100 : ℚ) = 80 := by
      rw [Rat.mkRat_eq_div]
      norm_num
    rw [h80] at hb
    refine le_trans hb ?_
    have hn : (0 : ℚ) ≤
        ((dist.filter (fun e => decide (e.1 ≠ chronKey))).length : ℚ) :=
      Nat.cast_nonneg _
    nlinarith
  · intro x hx hk
    rw [hG] at hx
    exact setKey_eq_of_key hx hk
  · intro p hp hkg hkc
    rw [hG]
    have hmem : geoMap p ∈ dist.map geoMap := List.mem_map_of_mem _ hp
    have heq : geoMap p = (p.1, roundTo1 (p.2 * mkRat 85 100)) := by
      unfold geoMap
      rw [if_neg (by simp [hkg, hkc])]
    rw [heq] at hmem
    exact setKey_mem_of_ne hmem hkg
  · intro h0 hsum
    rw [hG, filter_ne_setKey,
      filter_key_map geoMap geoMap_fst (fun k => decide (k ≠ geoKey))]
    have hne : ∀ p ∈ dist.filter (fun e => decide (e.1 ≠ geoKey)),
        p.1 ≠ geoKey := by
      intro p hp
      have := List.of_mem_filter hp
      simpa using this
    have h0f : ∀ p ∈ dist.filter (fun e => decide (e.1 ≠ geoKey)),
        p.1 = chronKey → p.2 = 0 := by
      intro p hp hk
      exact h0 p (List.mem_of_mem_filter hp) hk
    have hb := geo_sum_bound (dist.filter (fun e => decide (e.1 ≠ geoKey)))
      hne h0f
    rw [hsum] at hb
    have h85 : mkRat 85 100 * (100 : ℚ) = 85 := by
      rw [Rat.mkRat_eq_div]
      norm_num
    rw [h85] at hb
    refine le_trans hb ?_
    have hn : (0 : ℚ) ≤
        ((dist.filter (fun e => decide (e.1 ≠ geoKey))).length : ℚ) :=
      Nat.cast_nonneg _
    nlinarith

/-- Witness for claim C9: on the base pattern table the derived History
table contains the chronological key at exactly twenty, and its
non-chronological entries sum to eighty within the stated tolerance. -/
theorem claim_C9_witness :
    ((chronKey, (20 : ℚ)) ∈ adjustDist UPSC_PATTERN_DIST (some "History")) ∧
    |(((adjustDist UPSC_PATTERN_DIST (some "History")).filter
        (fun e => decide (e.1 ≠ chronKey))).map Prod.snd).sum - 80| ≤
      ((UPSC_PATTERN_DIST.filter
        (fun e => decide (e.1 ≠ chronKey))).length : ℚ) * (1 / 10) := by
  constructor
  · with_unfolding_all decide
  · exact (claim_C9_subject_weight_derivation UPSC_PATTERN_DIST).1.2.2
      (by with_unfolding_all decide)

end QAGen
